import Mathlib

/-!
Verification development for the DSATUR graph-coloring implementation
(`src/dsatur.py`).  The mutable arrays of the Python code are embedded as
Lean lists threaded through explicit state; the external `TenseBinArray`
bit-vector collaborator (not part of the repository sources) is modelled
from the spec's collaborator contract (spec paragraph 6: indexed get/set,
bitwise AND, all-zero test) as `List Bool`.  The backtracking stack, a
fixed-size Python array `stack` with live index `stack_top` whose slots
above `stack_top` are never read before being overwritten, is embedded as
the list of live frames with the head of the list as the top of the stack.
The Python `for vertex in vtx` construction loop is embedded as an
ascending scan of `0 .. n-1`, which is the iteration order that the
documented contiguous-vertex-id precondition (spec paragraph 3) yields.
-/

namespace Dsatur

/-- Bitwise AND of two bit rows followed by the all-zero test:
`(a & b).is_zero()` on `TenseBinArray` values (dsatur.py line 190). -/
def bandIsZero (a b : List Bool) : Bool :=
  (List.zipWith (fun x y => x && y) a b).all (fun x => !x)

/-- All endpoints occurring in the edge list, in order. -/
def endpoints (edges : List (Nat × Nat)) : List Nat :=
  edges.foldr (fun e acc => e.1 :: e.2 :: acc) []

/-- Number of distinct vertices of the edge list:
`vtx_count = len(set(..) | set(..))` (dsatur.py lines 84-85). -/
def vtxCount (edges : List (Nat × Nat)) : Nat :=
  (endpoints edges).dedup.length

/-- Adjacency row of `vertex`: a length-`n` bit array with the vertex's own
bit set and one bit per neighbour found scanning the edge list
(dsatur.py lines 102-116, including the `elif` asymmetry). -/
def adjRowArr (edges : List (Nat × Nat)) (n vertex : Nat) : List Bool :=
  edges.foldl
    (fun arr e =>
      if e.1 = vertex then arr.set e.2 true
      else if e.2 = vertex then arr.set e.1 true
      else arr)
    ((List.replicate n false).set vertex true)

/-- Static neighbour count of `vertex`: the number of edges incident to it,
counting each edge once as in the `if/elif` of dsatur.py lines 108-114. -/
def adjCountOf (edges : List (Nat × Nat)) (vertex : Nat) : Nat :=
  edges.foldl
    (fun k e => if e.1 = vertex then k + 1 else if e.2 = vertex then k + 1 else k)
    0

/-- The immutable per-graph data built before the search:
`vtx_count`, `adj_vtx_matr` and `adj_vtx_count`. -/
structure GraphData where
  n : Nat
  adj_vtx_matr : List (List Bool)
  adj_vtx_count : List Nat
deriving Repr, DecidableEq

/-- Construction of the graph constants from the edge list
(dsatur.py lines 84-117). -/
def mkGraphData (edges : List (Nat × Nat)) : GraphData :=
  { n := vtxCount edges
    adj_vtx_matr := (List.range (vtxCount edges)).map (adjRowArr edges (vtxCount edges))
    adj_vtx_count := (List.range (vtxCount edges)).map (adjCountOf edges) }

/-- One backtracking stack entry `(vertex, color, colors_used)`
(dsatur.py lines 169, 204, 232). -/
structure Frame where
  vertex : Nat
  color : Option Nat
  colors_used : Nat
deriving Repr, DecidableEq

/-- The mutable state of one `__dsatur` run.  `stack` holds the live frames
`stack[0..stack_top]` with the top of the stack first. -/
structure DState where
  vtx_to_cls : List (Option Nat)
  cls_groups : List (List Bool)
  adj_cls_matr : List (List Bool)
  adj_cls_count_matr : List (List Nat)
  adj_cls_count_all : List Nat
  best_found : Nat
  best_coloring : Option (List (Option Nat))
  stack : List Frame
deriving Repr, DecidableEq

/-- Read a matrix bit with out-of-range default `false`. -/
def bit2 (m : List (List Bool)) (i j : Nat) : Bool :=
  (m.getD i []).getD j false

/-- Read a matrix counter with out-of-range default `0`. -/
def cnt2 (m : List (List Nat)) (i j : Nat) : Nat :=
  (m.getD i []).getD j 0

/-- Write one entry of a matrix row. -/
def set2 {α : Type} (m : List (List α)) (i j : Nat) (a : α) : List (List α) :=
  m.set i ((m.getD i []).set j a)

/-- Saturation score `dsatur_score` of a vertex:
`(adj_cls_count_all[v], adj_vtx_count[v])` (dsatur.py line 128). -/
def dsatur_score (g : GraphData) (st : DState) (v : Nat) : Nat × Nat :=
  (st.adj_cls_count_all.getD v 0, g.adj_vtx_count.getD v 0)

/-- Strict lexicographic comparison of score pairs, as Python compares
`(int, int)` tuples. -/
def pairLt (p q : Nat × Nat) : Bool :=
  p.1 < q.1 || (p.1 == q.1 && p.2 < q.2)

/-- Python `max(l, key=key, default=None)` over a list scanned left to
right: keeps the first element whose key is maximal. -/
def pyMax (key : Nat → Nat × Nat) (l : List Nat) : Option Nat :=
  l.foldl
    (fun acc v =>
      match acc with
      | none => some v
      | some w => if pairLt (key w) (key v) then some v else some w)
    none

/-- The generator `adjacent_vertices(vertex)`: indices `idx ≠ vertex` with
`adj_vtx_matr[vertex][idx] == 1`, in ascending order
(dsatur.py lines 130-135). -/
def adjacent_vertices (g : GraphData) (vertex : Nat) : List Nat :=
  (List.range g.n).filter
    (fun idx => decide (vertex ≠ idx) && bit2 g.adj_vtx_matr vertex idx)

/-- Saturation update for one neighbour `idx` of a vertex that just received
`color` (body of the loop in dsatur.py lines 142-148). -/
def colorNeighborStep (color : Nat) (st : DState) (idx : Nat) : DState :=
  let st :=
    if bit2 st.adj_cls_matr idx color = false then
      { st with
          adj_cls_matr := set2 st.adj_cls_matr idx color true
          adj_cls_count_all :=
            st.adj_cls_count_all.set idx (st.adj_cls_count_all.getD idx 0 + 1) }
    else st
  { st with
      adj_cls_count_matr :=
        set2 st.adj_cls_count_matr idx color (cnt2 st.adj_cls_count_matr idx color + 1) }

/-- `color_vertex(vertex, color)` (dsatur.py lines 137-148). -/
def color_vertex (g : GraphData) (st : DState) (vertex color : Nat) : DState :=
  let st :=
    { st with
        vtx_to_cls := st.vtx_to_cls.set vertex (some color)
        cls_groups := set2 st.cls_groups color vertex true }
  (adjacent_vertices g vertex).foldl (colorNeighborStep color) st

/-- Saturation downdate for one neighbour `idx` of a vertex that just lost
`color` (body of the loop in dsatur.py lines 155-161). -/
def uncolorNeighborStep (color : Nat) (st : DState) (idx : Nat) : DState :=
  let st :=
    { st with
        adj_cls_count_matr :=
          set2 st.adj_cls_count_matr idx color (cnt2 st.adj_cls_count_matr idx color - 1) }
  if cnt2 st.adj_cls_count_matr idx color = 0 then
    { st with
        adj_cls_matr := set2 st.adj_cls_matr idx color false
        adj_cls_count_all :=
          st.adj_cls_count_all.set idx (st.adj_cls_count_all.getD idx 0 - 1) }
  else st

/-- `uncolor_vertex(vertex, color)` (dsatur.py lines 150-161). -/
def uncolor_vertex (g : GraphData) (st : DState) (vertex color : Nat) : DState :=
  let st :=
    { st with
        vtx_to_cls := st.vtx_to_cls.set vertex none
        cls_groups := set2 st.cls_groups color vertex false }
  (adjacent_vertices g vertex).foldl (uncolorNeighborStep color) st

/-- First compatible color in `range(start_color, colors_used)`, else the
brand-new color `colors_used` (dsatur.py lines 189-195). -/
def chooseColor (g : GraphData) (st : DState) (vertex start_color colors_used : Nat) : Nat :=
  match (List.range' start_color (colors_used - start_color)).find?
      (fun idx => bandIsZero (g.adj_vtx_matr.getD vertex []) (st.cls_groups.getD idx [])) with
  | some c => c
  | none => colors_used

/-- Next vertex to color: `max` over the uncolored vertices by
`dsatur_score`, `None` when every vertex is colored
(dsatur.py lines 211-216). -/
def nextVertex (g : GraphData) (st : DState) : Option Nat :=
  pyMax (dsatur_score g st)
    ((List.range g.n).filter (fun v => (st.vtx_to_cls.getD v none).isNone))

/-- The start of a loop iteration (dsatur.py lines 177-183): if the frame
already carries a color, retract it and resume at the next color. -/
def uncolorPhase (g : GraphData) (fr : Frame) (st : DState) : DState × Nat :=
  match fr.color with
  | some c => (uncolor_vertex g st fr.vertex c, c + 1)
  | none => (st, 0)

/-- One iteration of the main search loop (dsatur.py lines 172-232), on a
state whose stack is `fr :: rest`.  Returns the successor state together
with `true` when the iteration executed a `break`. -/
def stepFn (g : GraphData) (mode target : Nat) (fr : Frame) (rest : List Frame)
    (st : DState) : DState × Bool :=
  let uc := uncolorPhase g fr st
  let st1 := uc.1
  let start_color := uc.2
  let new_color := chooseColor g st1 fr.vertex start_color fr.colors_used
  let colors_used :=
    if new_color = fr.colors_used then fr.colors_used + 1 else fr.colors_used
  if st1.best_found ≤ colors_used then
    ({ st1 with stack := rest }, false)
  else
    let st2 := { st1 with stack := ⟨fr.vertex, some new_color, colors_used⟩ :: rest }
    let st3 := color_vertex g st2 fr.vertex new_color
    match nextVertex g st3 with
    | none =>
        let st4 :=
          { st3 with best_found := colors_used, best_coloring := some st3.vtx_to_cls }
        if mode = 0 then (st4, true)
        else if st4.best_found ≤ target then (st4, true)
        else ({ st4 with stack := st4.stack.tail }, false)
    | some v =>
        ({ st3 with stack := ⟨v, none, colors_used⟩ :: st3.stack }, false)

/-- The zero-initialised search state, before the initial vertex is pushed
(dsatur.py lines 89-98). -/
def zeroState (g : GraphData) (best_found : Nat) : DState :=
  { vtx_to_cls := List.replicate g.n none
    cls_groups := List.replicate best_found (List.replicate g.n false)
    adj_cls_matr := List.replicate g.n (List.replicate best_found false)
    adj_cls_count_matr := List.replicate g.n (List.replicate best_found 0)
    adj_cls_count_all := List.replicate g.n 0
    best_found := best_found
    best_coloring := none
    stack := [] }

/-- The initial state with the first vertex pushed
(dsatur.py lines 168-169): `max(range(vtx_count), key=dsatur_score)`.
For `vtx_count = 0` the Python code raises `ValueError` at line 168; that
case is embedded as an empty stack, on which the loop performs no
iteration. -/
def initState (g : GraphData) (best_found : Nat) : DState :=
  let st0 := zeroState g best_found
  match pyMax (dsatur_score g st0) (List.range g.n) with
  | some v => { st0 with stack := [⟨v, none, 0⟩] }
  | none => st0

/-- The main loop run with no timeout (`time_exceeded` constantly false,
dsatur.py lines 122-123 and 172): iterate `stepFn` until the stack is
empty or a `break` fires.  `none` means the fuel ran out first. -/
def dsaturLoop (g : GraphData) (mode target : Nat) : Nat → DState → Option DState
  | 0, _ => none
  | fuel + 1, st =>
    match st.stack with
    | [] => some st
    | fr :: rest =>
      match stepFn g mode target fr rest st with
      | (st1, true) => some st1
      | (st1, false) => dsaturLoop g mode target fuel st1

/-- State after exactly `k` loop iterations (stopping earlier at a `break`
or an empty stack). -/
def runSteps (g : GraphData) (mode target : Nat) : Nat → DState → DState
  | 0, st => st
  | k + 1, st =>
    match st.stack with
    | [] => st
    | fr :: rest =>
      match stepFn g mode target fr rest st with
      | (st1, true) => st1
      | (st1, false) => runSteps g mode target k st1

/-- The value returned by `__dsatur` from its final state
(dsatur.py line 234). -/
def extractResult (st : DState) : Option (Nat × List (Option Nat)) :=
  match st.best_coloring with
  | none => none
  | some c => some (st.best_found, c)

/-- Fuel sufficient for the loop to finish on any state reachable from
`initState` (proved below): strictly more than the termination measure of
the initial state. -/
def fuelBound (n best_found : Nat) : Nat :=
  (best_found + 2) * (best_found + 3) ^ n + 1

/-- A full `__dsatur(edges, _, _, mode, timeout=None, ...)` run
(dsatur.py lines 10-234), with `best_found`/`target` as in the kwargs.
In greedy mode the code uses `best_found = vtx_count` and `target = 1`. -/
def dsaturRun (edges : List (Nat × Nat)) (mode target best_found : Nat) :
    Option (Nat × List (Option Nat)) :=
  let g := mkGraphData edges
  match dsaturLoop g mode target (fuelBound g.n best_found) (initState g best_found) with
  | some st => extractResult st
  | none => none

/-- `__dsatur` in greedy mode: `best_found = vtx_count`, `target = 1`
(dsatur.py lines 86 and 90). -/
def dsaturGreedy (edges : List (Nat × Nat)) : Option (Nat × List (Option Nat)) :=
  dsaturRun edges 0 1 (vtxCount edges)

/-- `color_graph(edges, mode="greedy", timeout=None)`
(dsatur.py lines 245-253). -/
def color_graph_greedy (edges : List (Nat × Nat)) : Option (Nat × List (Option Nat)) :=
  dsaturGreedy edges

/-- `color_graph(edges, mode="bnb", improve, timeout=None)`
(dsatur.py lines 255-282): a greedy run, then on success a
branch-and-bound run seeded with the greedy bound, falling back to the
greedy result when the second run yields nothing. -/
def color_graph_bnb (edges : List (Nat × Nat)) (improve : Option Nat) :
    Option (Nat × List (Option Nat)) :=
  match dsaturGreedy edges with
  | none => none
  | some greedy =>
    let target := match improve with | none => 1 | some i => greedy.1 - i
    match dsaturRun edges 1 target greedy.1 with
    | none => some greedy
    | some bnb => some bnb

/-- The timeout predicate built at dsatur.py line 126:
`(datetime.now() - start_time).total_seconds() > timeout`. -/
def time_exceeded (start_time timeout now : Int) : Bool :=
  now - start_time > timeout

/-- The main loop with a timeout.  The ambient wall clock is embedded as
the list `clock` of successive `datetime.now()` samples; the loop guard
(dsatur.py line 172) consumes one sample per iteration after checking
that the stack is nonempty, matching the short-circuit of the Python
`while` condition.  The result carries the unconsumed remainder of the
clock. -/
def dsaturLoopT (g : GraphData) (mode target : Nat) (timeout start_time : Int) :
    Nat → DState → List Int → Option (DState × List Int)
  | 0, _, _ => none
  | fuel + 1, st, clock =>
    match st.stack with
    | [] => some (st, clock)
    | fr :: rest =>
      let now := clock.headD 0
      let clock1 := clock.tail
      if time_exceeded start_time timeout now then some (st, clock1)
      else
        match stepFn g mode target fr rest st with
        | (st1, true) => some (st1, clock1)
        | (st1, false) => dsaturLoopT g mode target timeout start_time fuel st1 clock1

/-- A timed `__dsatur` run with an externally supplied `start_time`,
used below both for the code's behaviour and for the spec-modelled
shared-budget variant. -/
def dsaturRunTFrom (edges : List (Nat × Nat)) (mode target best_found : Nat)
    (timeout start_time : Int) (clock : List Int) :
    Option (Option (Nat × List (Option Nat)) × List Int) :=
  let g := mkGraphData edges
  match dsaturLoopT g mode target timeout start_time (fuelBound g.n best_found)
      (initState g best_found) clock with
  | some (st, clock1) => some (extractResult st, clock1)
  | none => none

/-- A timed `__dsatur` run as the code performs it: `start_time` is
sampled by `datetime.now()` at the entry of this very call
(dsatur.py line 125), consuming the first clock sample. -/
def dsaturRunT (edges : List (Nat × Nat)) (mode target best_found : Nat)
    (timeout : Int) (clock : List Int) :
    Option (Option (Nat × List (Option Nat)) × List Int) :=
  dsaturRunTFrom edges mode target best_found timeout (clock.headD 0) clock.tail

/-- `color_graph(edges, mode="bnb", timeout=t)` with the wall clock made
explicit (dsatur.py lines 255-282): both `__dsatur` calls receive the
same `timeout` value, and each samples its own `start_time` at its own
entry. -/
def color_graph_bnbT (edges : List (Nat × Nat)) (timeout : Int) (clock : List Int) :
    Option (Option (Nat × List (Option Nat))) :=
  match dsaturRunT edges 0 1 (vtxCount edges) timeout clock with
  | none => none
  | some (none, _) => some none
  | some (some greedy, clock1) =>
    match dsaturRunT edges 1 1 greedy.1 timeout clock1 with
    | none => none
    | some (none, _) => some (some greedy)
    | some (some bnb, _) => some (some bnb)

/-- Modelled from the spec: the claimed composition in which the two runs
share a single wall-clock budget measured from the start of the overall
call, i.e. the second run's `time_exceeded` keeps comparing against the
first run's `start_time` instead of resampling its own.  This definition
follows the spec's words (spec paragraphs on the shared timeout budget)
and exists only to be compared against `color_graph_bnbT`. -/
def color_graph_bnbT_sharedBudget (edges : List (Nat × Nat)) (timeout : Int)
    (clock : List Int) : Option (Option (Nat × List (Option Nat))) :=
  let start0 := clock.headD 0
  match dsaturRunTFrom edges 0 1 (vtxCount edges) timeout start0 clock.tail with
  | none => none
  | some (none, _) => some none
  | some (some greedy, clock1) =>
    match dsaturRunTFrom edges 1 1 greedy.1 timeout start0 clock1.tail with
    | none => none
    | some (none, _) => some (some greedy)
    | some (some bnb, _) => some (some bnb)

/-- Weight of a stack frame for the termination measure: an uncommitted
frame weighs most, and recommitting a frame with a strictly larger color
strictly lowers its weight. -/
def frameWeight (B0 : Nat) (fr : Frame) : Nat :=
  match fr.color with
  | none => B0 + 2
  | some c => B0 + 1 - c

/-- Termination measure of a stack (top of the stack first): the frame at
depth `d` from the bottom contributes its weight times `(B0+3) ^ (n-1-d)`. -/
def stackMeasure (B0 n : Nat) : List Frame → Nat
  | [] => 0
  | fr :: rest => frameWeight B0 fr * (B0 + 3) ^ (n - (fr :: rest).length) + stackMeasure B0 n rest

/-- Boolean check for a pair of adjacent, distinctly-indexed vertices that
are both colored and share a color (the property the spec's invariant
forbids). -/
def hasAdjacentSameColor (edges : List (Nat × Nat)) (col : List (Option Nat)) : Bool :=
  edges.any
    (fun e =>
      decide (e.1 ≠ e.2) && (col.getD e.1 none).isSome
        && col.getD e.1 none == col.getD e.2 none)

/-- Validity of a (possibly partial) coloring with respect to the edge
list: no edge joins two distinct vertices that carry the same color. -/
def ProperColoring (edges : List (Nat × Nat)) (col : List (Option Nat)) : Prop :=
  ∀ e ∈ edges, e.1 ≠ e.2 →
    ∀ c, col.getD e.1 none = some c → col.getD e.2 none ≠ some c

/-- The graph spanned by the edge list admits a proper coloring of its
vertices `0 .. n-1` with `k` colors. -/
def ColorableWith (edges : List (Nat × Nat)) (n k : Nat) : Prop :=
  ∃ f : Fin n → Fin k,
    ∀ e ∈ edges, e.1 ≠ e.2 →
      ∀ (h1 : e.1 < n) (h2 : e.2 < n), f ⟨e.1, h1⟩ ≠ f ⟨e.2, h2⟩

/-- Number of distinct colors actually occurring in a returned
assignment. -/
def distinctColors (col : List (Option Nat)) : Nat :=
  (col.filterMap id).dedup.length

/-- Contiguity precondition on the edge list (spec paragraph 3): every
endpoint lies in `[0, vtx_count)`.  Without it the Python code indexes
arrays out of range. -/
def EdgesOk (edges : List (Nat × Nat)) : Prop :=
  ∀ e ∈ edges, e.1 < vtxCount edges ∧ e.2 < vtxCount edges

/-- The structural invariant maintained by every loop iteration of
`__dsatur`, in any mode and for any initial bound `B0`. -/
structure Inv (g : GraphData) (B0 : Nat) (st : DState) : Prop where
  len_coloring : st.vtx_to_cls.length = g.n
  len_groups : st.cls_groups.length = B0
  row_len : ∀ r ∈ st.cls_groups, r.length = g.n
  best_le : st.best_found ≤ B0
  improved : st.best_coloring.isSome = true → st.best_found < B0
  consistent : ∀ c < B0, ∀ v < g.n,
    (bit2 st.cls_groups c v = true ↔ st.vtx_to_cls.getD v none = some c)
  frames_lt : ∀ fr ∈ st.stack, fr.vertex < g.n
  frames_cu : ∀ fr ∈ st.stack, fr.colors_used ≤ B0
  frames_color : ∀ fr ∈ st.stack, ∀ c, fr.color = some c → c < fr.colors_used
  frames_match : ∀ fr ∈ st.stack, ∀ c, fr.color = some c →
    st.vtx_to_cls.getD fr.vertex none = some c
  rest_committed : ∀ fr l, st.stack = fr :: l → ∀ f ∈ l, f.color.isSome = true
  top_uncolored : ∀ fr l, st.stack = fr :: l → fr.color = none →
    st.vtx_to_cls.getD fr.vertex none = none
  stack_nodup : (st.stack.map Frame.vertex).Nodup

/-- The additional invariant of greedy (mode 0) runs: every colored vertex
sits on the stack with its committed color, the partial coloring is
proper, the `colors_used` fields grow toward the top of the stack, and no
incumbent has been recorded yet (in mode 0 recording an incumbent
immediately breaks the loop). -/
structure Inv0 (edges : List (Nat × Nat)) (st : DState) : Prop where
  colored_on_stack : ∀ v c, st.vtx_to_cls.getD v none = some c →
    ∃ fr ∈ st.stack, fr.vertex = v ∧ fr.color = some c
  proper : ProperColoring edges st.vtx_to_cls
  cu_mono : st.stack.Pairwise (fun a b => b.colors_used ≤ a.colors_used)
  no_incumbent : st.best_coloring = none

/-- The triangle graph of the spec's first concrete scenario. -/
def triangleEdges : List (Nat × Nat) := [(0, 1), (1, 2), (0, 2)]

/-- The path on four vertices of the spec's second concrete scenario. -/
def pathEdges : List (Nat × Nat) := [(0, 1), (1, 2), (2, 3)]

/-- An 8-vertex graph (greedy bound 4, optimum 3) on which the
branch-and-bound phase of `color_graph` transiently violates the
properness invariant. -/
def gEight : List (Nat × Nat) :=
  [(0, 3), (0, 5), (0, 6), (1, 5), (2, 4), (2, 5), (2, 7), (4, 6), (4, 7), (6, 7)]

/-- A 6-vertex graph on which a branch-and-bound `__dsatur` run seeded
with `best_found = 4` reports a color count smaller than the number of
distinct colors in the assignment it returns. -/
def gSix : List (Nat × Nat) := [(3, 5), (2, 5), (2, 3), (0, 1), (0, 4)]

/-! Auxiliary list lemmas. -/

theorem getD_set_self {α : Type} (l : List α) (i : Nat) (a d : α) (h : i < l.length) :
    (l.set i a).getD i d = a := by
  simp [List.getD, h]

theorem getD_set_ne {α : Type} (l : List α) (i j : Nat) (a d : α) (h : i ≠ j) :
    (l.set i a).getD j d = l.getD j d := by
  simp [List.getD, List.getElem?_set_ne h]

theorem getD_replicate {α : Type} (n i : Nat) (a d : α) (h : i < n) :
    (List.replicate n a).getD i d = a := by
  simp [List.getD, List.getElem?_replicate, h]

/-! Field-preservation lemmas: the saturation updates touch only the
`adj_cls` family of arrays. -/

theorem colorNeighborStep_keeps (c : Nat) (st : DState) (i : Nat) :
    (colorNeighborStep c st i).vtx_to_cls = st.vtx_to_cls ∧
    (colorNeighborStep c st i).cls_groups = st.cls_groups ∧
    (colorNeighborStep c st i).best_found = st.best_found ∧
    (colorNeighborStep c st i).best_coloring = st.best_coloring ∧
    (colorNeighborStep c st i).stack = st.stack := by
  unfold colorNeighborStep
  dsimp only
  split <;> exact ⟨rfl, rfl, rfl, rfl, rfl⟩

theorem uncolorNeighborStep_keeps (c : Nat) (st : DState) (i : Nat) :
    (uncolorNeighborStep c st i).vtx_to_cls = st.vtx_to_cls ∧
    (uncolorNeighborStep c st i).cls_groups = st.cls_groups ∧
    (uncolorNeighborStep c st i).best_found = st.best_found ∧
    (uncolorNeighborStep c st i).best_coloring = st.best_coloring ∧
    (uncolorNeighborStep c st i).stack = st.stack := by
  unfold uncolorNeighborStep
  dsimp only
  split <;> exact ⟨rfl, rfl, rfl, rfl, rfl⟩

theorem foldl_colorNeighborStep_keeps (c : Nat) (l : List Nat) (st : DState) :
    ((l.foldl (colorNeighborStep c) st).vtx_to_cls = st.vtx_to_cls ∧
      (l.foldl (colorNeighborStep c) st).cls_groups = st.cls_groups) ∧
    (l.foldl (colorNeighborStep c) st).best_found = st.best_found ∧
    (l.foldl (colorNeighborStep c) st).best_coloring = st.best_coloring ∧
    (l.foldl (colorNeighborStep c) st).stack = st.stack := by
  induction l generalizing st with
  | nil => exact ⟨⟨rfl, rfl⟩, rfl, rfl, rfl⟩
  | cons a l ih =>
    have h := colorNeighborStep_keeps c st a
    have h2 := ih (colorNeighborStep c st a)
    simp only [List.foldl_cons]
    exact ⟨⟨h2.1.1.trans h.1, h2.1.2.trans h.2.1⟩, h2.2.1.trans h.2.2.1,
      h2.2.2.1.trans h.2.2.2.1, h2.2.2.2.trans h.2.2.2.2⟩

theorem foldl_uncolorNeighborStep_keeps (c : Nat) (l : List Nat) (st : DState) :
    ((l.foldl (uncolorNeighborStep c) st).vtx_to_cls = st.vtx_to_cls ∧
      (l.foldl (uncolorNeighborStep c) st).cls_groups = st.cls_groups) ∧
    (l.foldl (uncolorNeighborStep c) st).best_found = st.best_found ∧
    (l.foldl (uncolorNeighborStep c) st).best_coloring = st.best_coloring ∧
    (l.foldl (uncolorNeighborStep c) st).stack = st.stack := by
  induction l generalizing st with
  | nil => exact ⟨⟨rfl, rfl⟩, rfl, rfl, rfl⟩
  | cons a l ih =>
    have h := uncolorNeighborStep_keeps c st a
    have h2 := ih (uncolorNeighborStep c st a)
    simp only [List.foldl_cons]
    exact ⟨⟨h2.1.1.trans h.1, h2.1.2.trans h.2.1⟩, h2.2.1.trans h.2.2.1,
      h2.2.2.1.trans h.2.2.2.1, h2.2.2.2.trans h.2.2.2.2⟩

theorem color_vertex_vtx_to_cls (g : GraphData) (st : DState) (v c : Nat) :
    (color_vertex g st v c).vtx_to_cls = st.vtx_to_cls.set v (some c) :=
  (foldl_colorNeighborStep_keeps c (adjacent_vertices g v) _).1.1

theorem color_vertex_cls_groups (g : GraphData) (st : DState) (v c : Nat) :
    (color_vertex g st v c).cls_groups = set2 st.cls_groups c v true :=
  (foldl_colorNeighborStep_keeps c (adjacent_vertices g v) _).1.2

theorem color_vertex_best_found (g : GraphData) (st : DState) (v c : Nat) :
    (color_vertex g st v c).best_found = st.best_found :=
  (foldl_colorNeighborStep_keeps c (adjacent_vertices g v) _).2.1

theorem color_vertex_best_coloring (g : GraphData) (st : DState) (v c : Nat) :
    (color_vertex g st v c).best_coloring = st.best_coloring :=
  (foldl_colorNeighborStep_keeps c (adjacent_vertices g v) _).2.2.1

theorem color_vertex_stack (g : GraphData) (st : DState) (v c : Nat) :
    (color_vertex g st v c).stack = st.stack :=
  (foldl_colorNeighborStep_keeps c (adjacent_vertices g v) _).2.2.2

theorem uncolor_vertex_vtx_to_cls (g : GraphData) (st : DState) (v c : Nat) :
    (uncolor_vertex g st v c).vtx_to_cls = st.vtx_to_cls.set v none :=
  (foldl_uncolorNeighborStep_keeps c (adjacent_vertices g v) _).1.1

theorem uncolor_vertex_cls_groups (g : GraphData) (st : DState) (v c : Nat) :
    (uncolor_vertex g st v c).cls_groups = set2 st.cls_groups c v false :=
  (foldl_uncolorNeighborStep_keeps c (adjacent_vertices g v) _).1.2

theorem uncolor_vertex_best_found (g : GraphData) (st : DState) (v c : Nat) :
    (uncolor_vertex g st v c).best_found = st.best_found :=
  (foldl_uncolorNeighborStep_keeps c (adjacent_vertices g v) _).2.1

theorem uncolor_vertex_best_coloring (g : GraphData) (st : DState) (v c : Nat) :
    (uncolor_vertex g st v c).best_coloring = st.best_coloring :=
  (foldl_uncolorNeighborStep_keeps c (adjacent_vertices g v) _).2.2.1

theorem uncolor_vertex_stack (g : GraphData) (st : DState) (v c : Nat) :
    (uncolor_vertex g st v c).stack = st.stack :=
  (foldl_uncolorNeighborStep_keeps c (adjacent_vertices g v) _).2.2.2

theorem uncolorPhase_best_found (g : GraphData) (fr : Frame) (st : DState) :
    (uncolorPhase g fr st).1.best_found = st.best_found := by
  unfold uncolorPhase
  cases fr.color with
  | none => rfl
  | some c => exact uncolor_vertex_best_found ..

theorem uncolorPhase_best_coloring (g : GraphData) (fr : Frame) (st : DState) :
    (uncolorPhase g fr st).1.best_coloring = st.best_coloring := by
  unfold uncolorPhase
  cases fr.color with
  | none => rfl
  | some c => exact uncolor_vertex_best_coloring ..

theorem uncolorPhase_stack (g : GraphData) (fr : Frame) (st : DState) :
    (uncolorPhase g fr st).1.stack = st.stack := by
  unfold uncolorPhase
  cases fr.color with
  | none => rfl
  | some c => exact uncolor_vertex_stack ..

/-! The upper bound `best_found` never grows, and any recorded incumbent
was recorded with a strict improvement over the initial bound. -/

theorem stepFn_bound (g : GraphData) (mode target B0 : Nat) (fr : Frame) (rest : List Frame)
    (st : DState) (h1 : st.best_found ≤ B0)
    (h2 : st.best_coloring.isSome = true → st.best_found < B0) :
    (stepFn g mode target fr rest st).1.best_found ≤ B0 ∧
    ((stepFn g mode target fr rest st).1.best_coloring.isSome = true →
      (stepFn g mode target fr rest st).1.best_found < B0) := by
  have e1 := uncolorPhase_best_found g fr st
  have e2 := uncolorPhase_best_coloring g fr st
  simp only [stepFn]
  generalize chooseColor g (uncolorPhase g fr st).1 fr.vertex (uncolorPhase g fr st).2 fr.colors_used = nc
  generalize (if nc = fr.colors_used then fr.colors_used + 1 else fr.colors_used) = cu
  split
  · next hle =>
    exact ⟨by simpa [e1] using h1, fun hs => by rw [e1]; exact h2 (by rwa [e2] at hs)⟩
  · next hgt =>
    rw [e1] at hgt
    have hcv : ∀ s : List Frame,
        (color_vertex g { (uncolorPhase g fr st).1 with stack := s } fr.vertex nc).best_found
          = st.best_found := by
      intro s; rw [color_vertex_best_found]; exact e1
    have hcv2 : ∀ s : List Frame,
        (color_vertex g { (uncolorPhase g fr st).1 with stack := s } fr.vertex nc).best_coloring
          = st.best_coloring := by
      intro s; rw [color_vertex_best_coloring]; exact e2
    split
    · split
      · exact ⟨by dsimp only; omega, fun _ => by dsimp only; omega⟩
      · split
        · exact ⟨by dsimp only; omega, fun _ => by dsimp only; omega⟩
        · exact ⟨by dsimp only; omega, fun _ => by dsimp only; omega⟩
    · next v heq =>
      refine ⟨?_, fun hs => ?_⟩
      · dsimp only; rw [hcv]; exact h1
      · dsimp only at hs ⊢; rw [hcv]; rw [hcv2] at hs; exact h2 hs

theorem dsaturLoop_bound (g : GraphData) (mode target B0 : Nat) (fuel : Nat) (st stf : DState)
    (h : dsaturLoop g mode target fuel st = some stf) (h1 : st.best_found ≤ B0)
    (h2 : st.best_coloring.isSome = true → st.best_found < B0) :
    stf.best_found ≤ B0 ∧ (stf.best_coloring.isSome = true → stf.best_found < B0) := by
  induction fuel generalizing st with
  | zero => simp [dsaturLoop] at h
  | succ fuel ih =>
    rw [dsaturLoop] at h
    cases hs : st.stack with
    | nil =>
      rw [hs] at h
      cases h
      exact ⟨h1, h2⟩
    | cons fr rest =>
      rw [hs] at h
      dsimp only at h
      have hb := stepFn_bound g mode target B0 fr rest st h1 h2
      cases hstep : stepFn g mode target fr rest st with
      | mk st1 brk =>
        rw [hstep] at h hb
        cases brk with
        | true => dsimp only at h; cases h; exact hb
        | false => dsimp only at h; exact ih st1 h hb.1 hb.2

theorem initState_best_found (g : GraphData) (B0 : Nat) :
    (initState g B0).best_found = B0 := by
  unfold initState
  dsimp only
  split <;> rfl

theorem initState_best_coloring (g : GraphData) (B0 : Nat) :
    (initState g B0).best_coloring = none := by
  unfold initState
  dsimp only
  split <;> rfl

/-- Core bound lemma: every result a `__dsatur` run returns reports
strictly fewer colors than the initial `best_found` it started from. -/
theorem dsaturRun_count_lt (edges : List (Nat × Nat)) (mode target B0 k : Nat)
    (c : List (Option Nat)) (h : dsaturRun edges mode target B0 = some (k, c)) : k < B0 := by
  simp only [dsaturRun] at h
  cases hl : dsaturLoop (mkGraphData edges) mode target
      (fuelBound (mkGraphData edges).n B0) (initState (mkGraphData edges) B0) with
  | none => rw [hl] at h; cases h
  | some stf =>
    rw [hl] at h
    have hb := dsaturLoop_bound (mkGraphData edges) mode target B0 _ _ _ hl
      (by rw [initState_best_found]) (by rw [initState_best_coloring]; intro hx; cases hx)
    simp only [extractResult] at h
    cases hc : stf.best_coloring with
    | none => rw [hc] at h; cases h
    | some col =>
      rw [hc] at h
      cases h
      exact hb.2 (by rw [hc]; rfl)

/-- C4: in `bnb` mode, whenever the heuristic (mode-0) run returns an
upper bound `U`, the overall result of `color_graph` is never worse than
`U`: the final color count is at most `U`, and the final result is the
exact (mode-1) run's output when that run produced one, else the
heuristic run's output. -/
theorem color_graph_bnb_never_worse (edges : List (Nat × Nat)) (improve : Option Nat)
    (U : Nat) (cU : List (Option Nat)) (h : dsaturGreedy edges = some (U, cU)) :
    color_graph_bnb edges improve =
      (match dsaturRun edges 1 (match improve with | none => 1 | some i => U - i) U with
        | none => some (U, cU)
        | some bnb => some bnb) ∧
    ∀ k c, color_graph_bnb edges improve = some (k, c) → k ≤ U := by
  have hdef : color_graph_bnb edges improve =
      (match dsaturRun edges 1 (match improve with | none => 1 | some i => U - i) U with
        | none => some (U, cU)
        | some bnb => some bnb) := by
    simp only [color_graph_bnb, h]
  refine ⟨hdef, fun k c hk => ?_⟩
  rw [hdef] at hk
  set tgt := (match improve with | none => 1 | some i => U - i) with htgt
  cases hr : dsaturRun edges 1 tgt U with
  | none =>
    rw [hr] at hk
    cases hk
    exact le_rfl
  | some bnb =>
    rw [hr] at hk
    cases hk
    exact le_of_lt (dsaturRun_count_lt edges 1 tgt U k c hr)

/-- C2: the spec's first concrete scenario expects `color_graph` to return
3 colors on the triangle in heuristic and in exact mode; the code instead
returns `None` in both modes, because the greedy run starts from
`best_found = vtx_count = 3` and the pruning test `colors_used >=
best_found` (dsatur.py line 200) rejects every complete 3-coloring of the
triangle. -/
theorem color_graph_triangle_returns_none :
    color_graph_greedy triangleEdges = none ∧ color_graph_bnb triangleEdges none = none :=
  ⟨rfl, rfl⟩

/-- C3: a `__dsatur` branch-and-bound run on `gSix` seeded with
`best_found = 4` and `target = 1` returns the pair
`(2, [0, 1, 1, 0, 1, 2])`, whose assignment uses the 3 distinct colors
`{0, 1, 2}`: the reported count does not equal the number of distinct
colors in the returned assignment.  The discrepancy arises because the
frame popped at dsatur.py line 228 after an incumbent is recorded leaves
its vertex permanently colored, and a later incumbent counts only the
colors committed along the live stack. -/
theorem dsatur_count_mismatch_on_gSix :
    dsaturRun gSix 1 1 4 = some (2, [some 0, some 1, some 1, some 0, some 1, some 2]) ∧
    distinctColors [some 0, some 1, some 1, some 0, some 1, some 2] = 3 :=
  ⟨rfl, rfl⟩

/-- C1: inside the branch-and-bound phase that `color_graph(gEight,
mode="bnb")` runs (its greedy phase returns the bound 4, so the second
`__dsatur` call receives `mode = 1`, `best_found = 4`, `target = 1`),
after 25 loop iterations the partial coloring `vtx_to_cls` assigns color
1 to both endpoints of the edge `(0, 3)`: the spec's claim that no two
adjacent colored vertices ever share a color during the search is false.
The culprit is again the pop at dsatur.py line 228, which strands the
last-colored vertex of the incumbent in the coloring while the search
backtracks past it; a later brand-new color (chosen without any conflict
test, dsatur.py lines 194-197) can then collide with the stranded
vertex. -/
theorem dsatur_adjacent_same_color_on_gEight :
    dsaturGreedy gEight =
        some (4, [some 0, some 0, some 0, some 1, some 1, some 1, some 2, some 3]) ∧
      (0, 3) ∈ gEight ∧
      (runSteps (mkGraphData gEight) 1 1 25 (initState (mkGraphData gEight) 4)).vtx_to_cls.getD 0
          none = some 1 ∧
      (runSteps (mkGraphData gEight) 1 1 25 (initState (mkGraphData gEight) 4)).vtx_to_cls.getD 3
          none = some 1 ∧
      hasAdjacentSameColor gEight
        (runSteps (mkGraphData gEight) 1 1 25 (initState (mkGraphData gEight) 4)).vtx_to_cls
        = true := by
  refine ⟨rfl, ?_, rfl, rfl, rfl⟩
  simp [gEight]

/-! Characterisation of the Python `max(..., key=dsatur_score)` selection:
on a strictly ascending candidate list it returns the smallest index among
those with the lexicographically greatest score. -/

theorem pairLt_iff (p q : Nat × Nat) :
    pairLt p q = true ↔ p.1 < q.1 ∨ (p.1 = q.1 ∧ p.2 < q.2) := by
  unfold pairLt
  cases p with
  | mk a b =>
    cases q with
    | mk c d =>
      simp only [Bool.or_eq_true, Bool.and_eq_true, decide_eq_true_eq, beq_iff_eq]

theorem pairLt_false_iff (p q : Nat × Nat) :
    pairLt p q = false ↔ q.1 < p.1 ∨ (q.1 = p.1 ∧ q.2 ≤ p.2) := by
  have h := pairLt_iff p q
  cases hb : pairLt p q with
  | true =>
    rw [hb] at h
    have h2 := h.mp rfl
    constructor
    · intro hf; cases hf
    · intro hr; exfalso; omega
  | false =>
    rw [hb] at h
    have h2 : ¬(p.1 < q.1 ∨ (p.1 = q.1 ∧ p.2 < q.2)) := fun hx => by cases h.mpr hx
    constructor
    · intro _; omega
    · intro _; rfl

theorem pyMax_fold_spec (key : Nat → Nat × Nat) (l : List Nat) :
    ∀ w : Nat, l.Sorted (· < ·) → (∀ u ∈ l, w < u) →
      ∃ v, (l.foldl
          (fun acc x =>
            match acc with
            | none => some x
            | some y => if pairLt (key y) (key x) then some x else some y)
          (some w)) = some v ∧
        (v = w ∨ v ∈ l) ∧
        (∀ u, (u = w ∨ u ∈ l) → pairLt (key v) (key u) = false) ∧
        (∀ u, (u = w ∨ u ∈ l) → key u = key v → v ≤ u) := by
  induction l with
  | nil =>
    intro w _ _
    refine ⟨w, rfl, Or.inl rfl, ?_, ?_⟩
    · rintro u (rfl | hu)
      · rw [pairLt_false_iff]; omega
      · cases hu
    · rintro u (rfl | hu) _
      · exact le_rfl
      · cases hu
  | cons a l ih =>
    intro w hs hw
    have hsl : l.Sorted (· < ·) := hs.of_cons
    have hal : ∀ u ∈ l, a < u := fun u hu => (List.sorted_cons.mp hs).1 u hu
    have hwa : w < a := hw a (List.mem_cons_self a l)
    simp only [List.foldl_cons]
    cases hcmp : pairLt (key w) (key a) with
    | true =>
      obtain ⟨v, hv1, hv2, hv3, hv4⟩ := ih a hsl hal
      refine ⟨v, hv1, ?_, ?_, ?_⟩
      · rcases hv2 with rfl | hv2
        · exact Or.inr (List.mem_cons_self v l)
        · exact Or.inr (List.mem_cons_of_mem a hv2)
      · rintro u (rfl | hu)
        · have h1 := hv3 a (Or.inl rfl)
          rw [pairLt_iff] at hcmp
          rw [pairLt_false_iff] at h1 ⊢
          omega
        · exact hv3 u (List.mem_cons.mp hu)
      · rintro u hu hk
        rcases hu with rfl | hu
        · exfalso
          have h1 := hv3 a (Or.inl rfl)
          rw [pairLt_iff] at hcmp
          rw [pairLt_false_iff] at h1
          rw [Prod.ext_iff] at hk
          omega
        · exact hv4 u (List.mem_cons.mp hu) hk
    | false =>
      obtain ⟨v, hv1, hv2, hv3, hv4⟩ :=
        ih w hsl (fun u hu => lt_trans hwa (hal u hu))
      refine ⟨v, hv1, ?_, ?_, ?_⟩
      · rcases hv2 with rfl | hv2
        · exact Or.inl rfl
        · exact Or.inr (List.mem_cons_of_mem a hv2)
      · rintro u (rfl | hu)
        · exact hv3 u (Or.inl rfl)
        · rcases List.mem_cons.mp hu with rfl | hu2
          · have h1 := hv3 w (Or.inl rfl)
            rw [pairLt_false_iff] at hcmp h1 ⊢
            omega
          · exact hv3 u (Or.inr hu2)
      · rintro u hu hk
        rcases hu with rfl | hu
        · exact hv4 u (Or.inl rfl) hk
        · rcases List.mem_cons.mp hu with rfl | hu2
          · have h1 := hv3 w (Or.inl rfl)
            have heq : key w = key v := by
              rw [pairLt_false_iff] at hcmp h1
              rw [Prod.ext_iff] at hk ⊢
              constructor <;> omega
            have hvw := hv4 w (Or.inl rfl) heq
            omega
          · exact hv4 u (Or.inr hu2) hk

theorem pyMax_sorted_spec (key : Nat → Nat × Nat) (l : List Nat) (hs : l.Sorted (· < ·))
    (v : Nat) :
    pyMax key l = some v ↔
      v ∈ l ∧ (∀ u ∈ l, pairLt (key v) (key u) = false) ∧
        (∀ u ∈ l, key u = key v → v ≤ u) := by
  cases l with
  | nil => simp [pyMax]
  | cons a l =>
    have hsl : l.Sorted (· < ·) := hs.of_cons
    have hal : ∀ u ∈ l, a < u := fun u hu => (List.sorted_cons.mp hs).1 u hu
    obtain ⟨vex, hv1, hv2, hv3, hv4⟩ := pyMax_fold_spec key l a hsl hal
    have hpy : pyMax key (a :: l) = some vex := by
      simpa [pyMax, List.foldl_cons] using hv1
    have hmem : ∀ u : Nat, (u = a ∨ u ∈ l) ↔ u ∈ a :: l := by
      intro u; rw [List.mem_cons]
    constructor
    · intro h
      rw [hpy] at h
      rw [Option.some_inj] at h
      rw [← h]
      exact ⟨(hmem vex).mp hv2, fun u hu => hv3 u ((hmem u).mpr hu),
        fun u hu => hv4 u ((hmem u).mpr hu)⟩
    · rintro ⟨hm, hmax, htie⟩
      rw [hpy]
      have hkeys : key v = key vex := by
        have h1 := hv3 v ((hmem v).mpr hm)
        have h2 := hmax vex ((hmem vex).mp hv2)
        rw [pairLt_false_iff] at h1 h2
        rw [Prod.ext_iff]
        omega
      have h5 := htie vex ((hmem vex).mp hv2) hkeys.symm
      have h6 := hv4 v ((hmem v).mpr hm) hkeys
      exact congrArg some (Nat.le_antisymm h6 h5)

/-- Characterisation of `nextVertex`: it picks among the currently
uncolored vertices the one whose score pair is lexicographically maximal,
and on ties the vertex with the smallest id. -/
theorem nextVertex_spec (g : GraphData) (st : DState) (v : Nat) :
    nextVertex g st = some v ↔
      (v < g.n ∧ (st.vtx_to_cls.getD v none).isNone = true) ∧
      (∀ u, u < g.n → (st.vtx_to_cls.getD u none).isNone = true →
        pairLt (dsatur_score g st v) (dsatur_score g st u) = false) ∧
      (∀ u, u < g.n → (st.vtx_to_cls.getD u none).isNone = true →
        dsatur_score g st u = dsatur_score g st v → v ≤ u) := by
  have hs : ((List.range g.n).filter
      (fun u => (st.vtx_to_cls.getD u none).isNone)).Sorted (· < ·) :=
    (List.pairwise_lt_range g.n).filter _
  have hiff := pyMax_sorted_spec (dsatur_score g st) _ hs v
  unfold nextVertex
  rw [hiff]
  simp only [List.mem_filter, List.mem_range]
  constructor
  · rintro ⟨⟨h1, h2⟩, h3, h4⟩
    exact ⟨⟨h1, h2⟩, fun u hu hc => h3 u ⟨hu, hc⟩, fun u hu hc => h4 u ⟨hu, hc⟩⟩
  · rintro ⟨⟨h1, h2⟩, h3, h4⟩
    exact ⟨⟨h1, h2⟩, fun u hu => h3 u hu.1 hu.2, fun u hu => h4 u hu.1 hu.2⟩

/-- C7: whenever the search selects the next vertex to color
(`nextVertex`, used once through `initState` before the loop, where every
vertex is still uncolored, and once in `stepFn` after each successful
coloring), it picks among the currently uncolored vertices the one whose
pair `(adj_cls_count_all[v], adj_vtx_count[v])` is lexicographically
maximal, and on ties the vertex with the smallest id. -/
theorem dsatur_vertex_selection (g : GraphData) (st : DState) (v : Nat) :
    nextVertex g st = some v ↔
      (v < g.n ∧ (st.vtx_to_cls.getD v none).isNone = true) ∧
      (∀ u, u < g.n → (st.vtx_to_cls.getD u none).isNone = true →
        pairLt (dsatur_score g st v) (dsatur_score g st u) = false) ∧
      (∀ u, u < g.n → (st.vtx_to_cls.getD u none).isNone = true →
        dsatur_score g st u = dsatur_score g st v → v ≤ u) :=
  nextVertex_spec g st v

/-- Witness for C4 on the 8-vertex graph `gEight`, whose heuristic run
returns the bound 4 and whose exact run improves it to 3. -/
theorem color_graph_bnb_never_worse_witness :
    dsaturGreedy gEight =
        some (4, [some 0, some 0, some 0, some 1, some 1, some 1, some 2, some 3]) ∧
      (color_graph_bnb gEight none =
        (match dsaturRun gEight 1 1 4 with
          | none =>
            some (4, [some 0, some 0, some 0, some 1, some 1, some 1, some 2, some 3])
          | some bnb => some bnb) ∧
      ∀ k c, color_graph_bnb gEight none = some (k, c) → k ≤ 4) :=
  ⟨by rfl,
    color_graph_bnb_never_worse gEight none 4
      [some 0, some 0, some 0, some 1, some 1, some 1, some 2, some 3] (by rfl)⟩

theorem list_set_restore {α : Type} (l : List α) (i : Nat) (d : α) :
    l.set i (l.getD i d) = l := by
  by_cases h : i < l.length
  · rw [List.getD_eq_getElem l d h]
    apply List.ext_getElem
    · simp
    · intro n h1 h2
      rw [List.getElem_set]
      split
      · next he => subst he; rfl
      · rfl
  · exact List.set_eq_of_length_le (by omega)

theorem bit2_set2_ne {m : List (List Bool)} {i j i2 j2 : Nat} (a : Bool) (h : i ≠ i2) :
    bit2 (set2 m i j a) i2 j2 = bit2 m i2 j2 := by
  unfold bit2 set2
  rw [getD_set_ne _ _ _ _ _ h]

theorem cnt2_set2_ne {m : List (List Nat)} {i j i2 j2 : Nat} (a : Nat) (h : i ≠ i2) :
    cnt2 (set2 m i j a) i2 j2 = cnt2 m i2 j2 := by
  unfold cnt2 set2
  rw [getD_set_ne _ _ _ _ _ h]

theorem set2_comm {α : Type} (m : List (List α)) {i i2 : Nat} (j j2 : Nat) (a b : α)
    (h : i ≠ i2) : set2 (set2 m i j a) i2 j2 b = set2 (set2 m i2 j2 b) i j a := by
  unfold set2
  rw [getD_set_ne _ _ _ _ _ h, getD_set_ne _ _ _ _ _ (Ne.symm h), List.set_comm _ _ _ h]

theorem set2_set2_self {α : Type} (m : List (List α)) (i j : Nat) (x y : α) :
    set2 (set2 m i j x) i j y = set2 m i j y := by
  unfold set2
  by_cases h : i < m.length
  · rw [getD_set_self _ _ _ _ h, List.set_set, List.set_set]
  · have hm : m.set i ((m.getD i []).set j x) = m := List.set_eq_of_length_le (by omega)
    rw [hm]

theorem set2_cnt_restore (m : List (List Nat)) (i j : Nat) :
    set2 m i j (cnt2 m i j) = m := by
  unfold set2 cnt2
  rw [list_set_restore, list_set_restore]

theorem set2_bit_restore (m : List (List Bool)) (i j : Nat) :
    set2 m i j (bit2 m i j) = m := by
  unfold set2 bit2
  rw [list_set_restore, list_set_restore]

theorem cnt2_set2_self {m : List (List Nat)} {i j : Nat} (x : Nat)
    (h1 : i < m.length) (h2 : j < (m.getD i []).length) :
    cnt2 (set2 m i j x) i j = x := by
  unfold cnt2 set2
  rw [getD_set_self _ _ _ _ h1, getD_set_self _ _ _ _ (by simpa using h2)]

theorem cnt2_set2_or (m : List (List Nat)) (i j : Nat) (x : Nat) :
    cnt2 (set2 m i j x) i j = x ∨ cnt2 (set2 m i j x) i j = cnt2 m i j := by
  by_cases h1 : i < m.length
  · by_cases h2 : j < (m.getD i []).length
    · left; exact cnt2_set2_self x h1 h2
    · right
      unfold cnt2 set2
      rw [getD_set_self _ _ _ _ h1,
        List.getD_eq_default _ _ (by simp only [List.length_set]; omega),
        List.getD_eq_default _ _ (by omega)]
  · right
    unfold cnt2 set2
    rw [List.set_eq_of_length_le (by omega)]

theorem cnt2_pos_in_range (m : List (List Nat)) (i j : Nat) (h : 0 < cnt2 m i j) :
    i < m.length ∧ j < (m.getD i []).length := by
  unfold cnt2 at h
  by_cases h1 : i < m.length
  · by_cases h2 : j < (m.getD i []).length
    · exact ⟨h1, h2⟩
    · exfalso
      have he : (m.getD i []).getD j 0 = 0 := List.getD_eq_default _ _ (by omega)
      omega
  · exfalso
    have he : m.getD i [] = [] := List.getD_eq_default _ _ (by omega)
    rw [he] at h
    simp [List.getD] at h

theorem color_uncolor_neighbor_comm (c : Nat) (st : DState) (a b : Nat) (hab : a ≠ b) :
    uncolorNeighborStep c (colorNeighborStep c st b) a
      = colorNeighborStep c (uncolorNeighborStep c st a) b := by
  have hba : b ≠ a := Ne.symm hab
  cases st with
  | mk vc cg am acm aca bf bc sk =>
    by_cases hb : bit2 am b c = false
    · simp only [colorNeighborStep, uncolorNeighborStep, hb, reduceIte]
      rw [cnt2_set2_ne _ hba, set2_comm _ _ _ _ _ hba,
        cnt2_set2_ne (cnt2 acm b c + 1) hba]
      by_cases hA : cnt2 (set2 acm a c (cnt2 acm a c - 1)) a c = 0
      · simp only [hA, reduceIte]
        rw [bit2_set2_ne false hab]
        simp only [hb, reduceIte]
        rw [set2_comm _ _ _ _ _ hba, cnt2_set2_ne _ hab,
          getD_set_ne _ _ _ _ _ hba, getD_set_ne _ _ _ _ _ hab,
          List.set_comm _ _ _ hba]
      · simp only [hA, reduceIte]
        simp only [hb, reduceIte]
        rw [cnt2_set2_ne _ hab]
    · have hb2 : bit2 am b c = true := by revert hb; cases bit2 am b c <;> simp
      simp only [colorNeighborStep, uncolorNeighborStep, hb2, Bool.true_eq_false, reduceIte]
      rw [cnt2_set2_ne _ hba, set2_comm _ _ _ _ _ hba,
        cnt2_set2_ne (cnt2 acm b c + 1) hba]
      by_cases hA : cnt2 (set2 acm a c (cnt2 acm a c - 1)) a c = 0
      · simp only [hA, reduceIte]
        rw [bit2_set2_ne false hab]
        simp only [hb2, Bool.true_eq_false, reduceIte]
        rw [cnt2_set2_ne _ hab]
      · simp only [hA, reduceIte]
        simp only [hb2, Bool.true_eq_false, reduceIte]
        rw [cnt2_set2_ne _ hab]

theorem uncolor_color_neighbor_self (c : Nat) (st : DState) (i : Nat)
    (hiff : bit2 st.adj_cls_matr i c = true ↔ 0 < cnt2 st.adj_cls_count_matr i c) :
    uncolorNeighborStep c (colorNeighborStep c st i) i = st := by
  cases st with
  | mk vc cg am acm aca bf bc sk =>
    dsimp only at hiff
    by_cases hb : bit2 am i c = false
    · have hc0 : cnt2 acm i c = 0 := by
        by_contra hc
        have h2 := hiff.mpr (by omega)
        rw [hb] at h2
        cases h2
      simp only [colorNeighborStep, uncolorNeighborStep, hb, reduceIte]
      have hX : cnt2 (set2 acm i c (cnt2 acm i c + 1)) i c - 1 = 0 := by
        rcases cnt2_set2_or acm i c (cnt2 acm i c + 1) with h | h <;> omega
      rw [hX, set2_set2_self]
      have hrw : set2 acm i c 0 = acm := by
        conv_lhs => rw [← hc0]
        exact set2_cnt_restore acm i c
      rw [hrw, hc0]
      simp only [reduceIte]
      rw [set2_set2_self]
      have hrw2 : set2 am i c false = am := by
        conv_lhs => rw [← hb]
        exact set2_bit_restore am i c
      rw [hrw2]
      by_cases hi : i < aca.length
      · rw [getD_set_self _ _ _ _ hi, List.set_set]
        simp only [Nat.add_sub_cancel]
        rw [list_set_restore]
      · have e1 : aca.set i (aca.getD i 0 + 1) = aca := List.set_eq_of_length_le (by omega)
        rw [e1, List.set_eq_of_length_le (l := aca) (n := i) (by omega)]
    · have hb2 : bit2 am i c = true := by revert hb; cases bit2 am i c <;> simp
      have hk : 0 < cnt2 acm i c := hiff.mp hb2
      obtain ⟨hin1, hin2⟩ := cnt2_pos_in_range acm i c hk
      simp only [colorNeighborStep, uncolorNeighborStep, hb2, Bool.true_eq_false, reduceIte]
      rw [cnt2_set2_self _ hin1 hin2, set2_set2_self]
      simp only [Nat.add_sub_cancel]
      rw [set2_cnt_restore]
      have hne : ¬ cnt2 acm i c = 0 := by omega
      simp only [hne, reduceIte]

theorem colorNeighborStep_insulate (c : Nat) (st : DState) (i : Nat)
    (A : List (Option Nat)) (B : List (List Bool)) :
    colorNeighborStep c { st with vtx_to_cls := A, cls_groups := B } i
      = { colorNeighborStep c st i with vtx_to_cls := A, cls_groups := B } := by
  cases st with
  | mk vc cg am acm aca bf bc sk =>
    simp only [colorNeighborStep]
    split <;> rfl

theorem uncolorNeighborStep_insulate (c : Nat) (st : DState) (i : Nat)
    (A : List (Option Nat)) (B : List (List Bool)) :
    uncolorNeighborStep c { st with vtx_to_cls := A, cls_groups := B } i
      = { uncolorNeighborStep c st i with vtx_to_cls := A, cls_groups := B } := by
  cases st with
  | mk vc cg am acm aca bf bc sk =>
    simp only [uncolorNeighborStep]
    split <;> rfl

theorem foldl_colorNeighborStep_insulate (c : Nat) (l : List Nat) (st : DState)
    (A : List (Option Nat)) (B : List (List Bool)) :
    l.foldl (colorNeighborStep c) { st with vtx_to_cls := A, cls_groups := B }
      = { l.foldl (colorNeighborStep c) st with vtx_to_cls := A, cls_groups := B } := by
  induction l generalizing st with
  | nil => rfl
  | cons a l ih =>
    simp only [List.foldl_cons, colorNeighborStep_insulate, ih]

theorem foldl_uncolorNeighborStep_insulate (c : Nat) (l : List Nat) (st : DState)
    (A : List (Option Nat)) (B : List (List Bool)) :
    l.foldl (uncolorNeighborStep c) { st with vtx_to_cls := A, cls_groups := B }
      = { l.foldl (uncolorNeighborStep c) st with vtx_to_cls := A, cls_groups := B } := by
  induction l generalizing st with
  | nil => rfl
  | cons a l ih =>
    simp only [List.foldl_cons, uncolorNeighborStep_insulate, ih]

theorem uncolor_foldl_color_comm (c : Nat) (l : List Nat) (a : Nat) (ha : a ∉ l)
    (st : DState) :
    uncolorNeighborStep c (l.foldl (colorNeighborStep c) st) a
      = l.foldl (colorNeighborStep c) (uncolorNeighborStep c st a) := by
  induction l generalizing st with
  | nil => rfl
  | cons b l ih =>
    have hab : a ≠ b := fun he => ha (he ▸ List.mem_cons_self b l)
    have hal : a ∉ l := fun he => ha (List.mem_cons_of_mem b he)
    simp only [List.foldl_cons]
    rw [ih hal, color_uncolor_neighbor_comm c st a b hab]

theorem fold_uncolor_fold_color (c : Nat) (l : List Nat) (hl : l.Nodup) :
    ∀ st : DState,
      (∀ i ∈ l, bit2 st.adj_cls_matr i c = true ↔ 0 < cnt2 st.adj_cls_count_matr i c) →
      l.foldl (uncolorNeighborStep c) (l.foldl (colorNeighborStep c) st) = st := by
  induction l with
  | nil => intro st _; rfl
  | cons a l ih =>
    intro st hiff
    have ha : a ∉ l := (List.nodup_cons.mp hl).1
    have hl2 : l.Nodup := (List.nodup_cons.mp hl).2
    simp only [List.foldl_cons]
    rw [uncolor_foldl_color_comm c l a ha,
      uncolor_color_neighbor_self c st a (hiff a (List.mem_cons_self a l))]
    exact ih hl2 st (fun i hi => hiff i (List.mem_cons_of_mem a hi))

theorem fold_uncolor_fold_color_full (c : Nat) (l : List Nat) (hl : l.Nodup)
    (st : DState) (A A2 : List (Option Nat)) (B B2 : List (List Bool))
    (hiff : ∀ i ∈ l,
      bit2 st.adj_cls_matr i c = true ↔ 0 < cnt2 st.adj_cls_count_matr i c) :
    l.foldl (uncolorNeighborStep c)
        { (l.foldl (colorNeighborStep c) { st with vtx_to_cls := A, cls_groups := B }) with
            vtx_to_cls := A2, cls_groups := B2 }
      = { st with vtx_to_cls := A2, cls_groups := B2 } := by
  rw [foldl_colorNeighborStep_insulate]
  have hcollapse :
      ({ ({ (l.foldl (colorNeighborStep c) st) with vtx_to_cls := A, cls_groups := B }) with
          vtx_to_cls := A2, cls_groups := B2 } : DState)
        = { (l.foldl (colorNeighborStep c) st) with vtx_to_cls := A2, cls_groups := B2 } := rfl
  rw [hcollapse, foldl_uncolorNeighborStep_insulate,
    fold_uncolor_fold_color c l hl st hiff]

/-- C6: applying `color_vertex(v, c)` and then immediately
`uncolor_vertex(v, c)` restores the saturation state (`adj_cls_matr`,
`adj_cls_count_matr`, `adj_cls_count_all`), the ColorGroup membership
(`cls_groups`) and the partial coloring (`vtx_to_cls`) to their exact
prior values.  The hypotheses are the facts that hold for the vertex
being decided in every search state in which the pair is invoked: `v` is
currently uncolored, sits in no ColorGroup, and each per-color neighbour
counter is positive exactly when the corresponding neighbour-color bit is
set.  Retractions in LIFO order relative to applications are exactly the
immediate-undo situation expressed here. -/
theorem color_then_uncolor_exact_inverse (g : GraphData) (st : DState) (v c : Nat)
    (h0 : st.vtx_to_cls.getD v none = none)
    (h1 : bit2 st.cls_groups c v = false)
    (hiff : ∀ i, i < g.n →
      (bit2 st.adj_cls_matr i c = true ↔ 0 < cnt2 st.adj_cls_count_matr i c)) :
    uncolor_vertex g (color_vertex g st v c) v c = st := by
  have hlnd : (adjacent_vertices g v).Nodup := (List.nodup_range _).filter _
  have hiffl : ∀ i ∈ adjacent_vertices g v,
      (bit2 st.adj_cls_matr i c = true ↔ 0 < cnt2 st.adj_cls_count_matr i c) :=
    fun i hi => hiff i (List.mem_range.mp (List.mem_of_mem_filter hi))
  simp only [color_vertex, uncolor_vertex]
  have e1 : (List.foldl (colorNeighborStep c) { st with vtx_to_cls := st.vtx_to_cls.set v (some c), cls_groups := set2 st.cls_groups c v true } (adjacent_vertices g v)).vtx_to_cls = st.vtx_to_cls.set v (some c) :=
    (foldl_colorNeighborStep_keeps c (adjacent_vertices g v) _).1.1
  have e2 : (List.foldl (colorNeighborStep c) { st with vtx_to_cls := st.vtx_to_cls.set v (some c), cls_groups := set2 st.cls_groups c v true } (adjacent_vertices g v)).cls_groups = set2 st.cls_groups c v true :=
    (foldl_colorNeighborStep_keeps c (adjacent_vertices g v) _).1.2
  rw [e1, e2, List.set_set, set2_set2_self]
  have e3 : st.vtx_to_cls.set v none = st.vtx_to_cls := by
    conv_lhs => rw [show (none : Option Nat) = st.vtx_to_cls.getD v none from h0.symm]
    exact list_set_restore _ _ _
  have e4 : set2 st.cls_groups c v false = st.cls_groups := by
    conv_lhs => rw [show false = bit2 st.cls_groups c v from h1.symm]
    exact set2_bit_restore _ _ _
  rw [e3, e4]
  exact fold_uncolor_fold_color_full c (adjacent_vertices g v) hlnd st
    (st.vtx_to_cls.set v (some c)) st.vtx_to_cls
    (set2 st.cls_groups c v true) st.cls_groups hiffl

/-- C5 counterexample: on `gEight` with `timeout = 10`, a wall clock on
which the greedy run finishes at time 0 and every later sample reads 105,
the code (`color_graph_bnbT`, whose second `__dsatur` call resamples its
own `start_time = 105` at dsatur.py line 125) lets the exact run finish
and returns its improvement `(3, ...)`; the spec-modelled shared-budget
composition (`color_graph_bnbT_sharedBudget`, comparing the same samples
against the overall start 0) would time the exact run out immediately and
return the greedy `(4, ...)`.  At the exact run's first guard the shared
budget is exhausted (`105 - 0 > 10`) while the code's own predicate is
not (`105 - 105 > 10` fails), so the claim that the two runs share one
wall-clock budget is false. -/
theorem dsatur_timeout_not_shared :
    color_graph_bnbT gEight 10 (List.replicate 9 (0 : Int) ++ List.replicate 40 105)
        = some (some (3, [some 0, some 0, some 2, some 1, some 0, some 1, some 2, some 1])) ∧
      color_graph_bnbT_sharedBudget gEight 10
          (List.replicate 9 (0 : Int) ++ List.replicate 40 105)
        = some (some (4, [some 0, some 0, some 0, some 1, some 1, some 1, some 2, some 3])) ∧
      time_exceeded 0 10 105 = true ∧ time_exceeded 105 10 105 = false :=
  ⟨rfl, rfl, rfl, rfl⟩

theorem time_exceeded_shift (start timeout now s : Int) :
    time_exceeded (start + s) timeout (now + s) = time_exceeded start timeout now := by
  unfold time_exceeded
  have h : now + s - (start + s) = now - start := by ring
  rw [h]

theorem dsaturLoopT_shift (g : GraphData) (mode target : Nat) (timeout start s : Int) :
    ∀ (fuel : Nat) (st : DState) (clock : List Int), fuel ≤ clock.length →
      dsaturLoopT g mode target timeout (start + s) fuel st
          (clock.map (fun t => t + s))
        = Option.map (fun p => (p.1, p.2.map (fun t => t + s)))
            (dsaturLoopT g mode target timeout start fuel st clock) := by
  intro fuel
  induction fuel with
  | zero => intro st clock _; rfl
  | succ fuel ih =>
    intro st clock hlen
    cases clock with
    | nil => simp at hlen
    | cons t cl =>
      rw [dsaturLoopT, dsaturLoopT]
      cases hs : st.stack with
      | nil => rfl
      | cons fr rest =>
        simp only [List.map_cons, List.headD_cons, List.tail_cons]
        rw [time_exceeded_shift start timeout t s]
        cases hte : time_exceeded start timeout t with
        | true => rfl
        | false =>
          cases hstep : stepFn g mode target fr rest st with
          | mk st1 brk =>
            cases brk with
            | true => rfl
            | false =>
              exact ih st1 cl (by simpa using Nat.le_of_succ_le_succ hlen)

/-- C5 amended: the two `__dsatur` calls of `color_graph` in `bnb` mode do
not share a wall-clock budget; each samples its own `start_time` at its
own entry (dsatur.py line 125) and its timeout decisions depend only on
the elapsed time since that start, so the second run's budget is
restarted: translating all the wall-clock samples a run sees by any
offset `s` leaves its result unchanged. -/
theorem dsatur_timeout_restarted (edges : List (Nat × Nat)) (mode target B0 : Nat)
    (timeout s : Int) (clock : List Int)
    (h : fuelBound (mkGraphData edges).n B0 + 1 ≤ clock.length) :
    dsaturRunT edges mode target B0 timeout (clock.map (fun t => t + s))
      = Option.map (fun p => (p.1, p.2.map (fun t => t + s)))
          (dsaturRunT edges mode target B0 timeout clock) := by
  cases clock with
  | nil => simp at h
  | cons t cl =>
    unfold dsaturRunT dsaturRunTFrom
    simp only [List.map_cons, List.headD_cons, List.tail_cons]
    rw [dsaturLoopT_shift (mkGraphData edges) mode target timeout t s
      (fuelBound (mkGraphData edges).n B0) (initState (mkGraphData edges) B0) cl
      (by simpa using Nat.le_of_succ_le_succ h)]
    cases dsaturLoopT (mkGraphData edges) mode target timeout t
        (fuelBound (mkGraphData edges).n B0) (initState (mkGraphData edges) B0) cl with
    | none => rfl
    | some p => rfl

/-- Witness for the amended C5 theorem on the path graph with a
2502-sample clock. -/
theorem dsatur_timeout_restarted_witness :
    fuelBound (mkGraphData pathEdges).n 2 + 1 ≤ (List.replicate 2502 (0 : Int)).length ∧
    dsaturRunT pathEdges 0 1 2 7 ((List.replicate 2502 (0 : Int)).map (fun t => t + 3))
      = Option.map (fun p => (p.1, p.2.map (fun t => t + 3)))
          (dsaturRunT pathEdges 0 1 2 7 (List.replicate 2502 (0 : Int))) :=
  ⟨by rw [List.length_replicate]; decide,
    dsatur_timeout_restarted pathEdges 0 1 2 7 3 (List.replicate 2502 (0 : Int))
      (by rw [List.length_replicate]; decide)⟩

/-- Witness for C6 at a concrete state of the path graph: the first
coloring decision of the run (vertex 1, color 0) applied to the freshly
initialised state and immediately retracted. -/
theorem color_then_uncolor_exact_inverse_witness :
    ((zeroState (mkGraphData pathEdges) 4).vtx_to_cls.getD 1 none = none ∧
      bit2 (zeroState (mkGraphData pathEdges) 4).cls_groups 0 1 = false ∧
      (∀ i, i < (mkGraphData pathEdges).n →
        (bit2 (zeroState (mkGraphData pathEdges) 4).adj_cls_matr i 0 = true ↔
          0 < cnt2 (zeroState (mkGraphData pathEdges) 4).adj_cls_count_matr i 0))) ∧
    uncolor_vertex (mkGraphData pathEdges)
        (color_vertex (mkGraphData pathEdges) (zeroState (mkGraphData pathEdges) 4) 1 0) 1 0
      = zeroState (mkGraphData pathEdges) 4 :=
  ⟨⟨by decide, by decide, by decide⟩,
    color_then_uncolor_exact_inverse (mkGraphData pathEdges)
      (zeroState (mkGraphData pathEdges) 4) 1 0 (by decide) (by decide) (by decide)⟩

theorem chooseColor_cases (g : GraphData) (st : DState) (v sc cu : Nat) :
    chooseColor g st v sc cu = cu ∨
      (sc ≤ chooseColor g st v sc cu ∧ chooseColor g st v sc cu < cu ∧
        bandIsZero (g.adj_vtx_matr.getD v [])
          (st.cls_groups.getD (chooseColor g st v sc cu) []) = true) := by
  unfold chooseColor
  cases hf : (List.range' sc (cu - sc)).find?
      (fun idx => bandIsZero (g.adj_vtx_matr.getD v []) (st.cls_groups.getD idx [])) with
  | none => left; rfl
  | some c =>
    right
    have h1 := List.find?_some hf
    have h2 := List.mem_of_find?_eq_some hf
    have h3 := List.mem_range'_1.mp h2
    have hsc : sc ≤ c := h3.1
    have hlt : c < cu := by omega
    exact ⟨hsc, hlt, h1⟩

theorem uncolorPhase_facts (g : GraphData) (B0 : Nat) (st : DState) (fr : Frame)
    (rest : List Frame) (hstack : st.stack = fr :: rest) (hinv : Inv g B0 st) :
    (uncolorPhase g fr st).1.vtx_to_cls.length = g.n ∧
    (uncolorPhase g fr st).1.cls_groups.length = B0 ∧
    (∀ r ∈ (uncolorPhase g fr st).1.cls_groups, r.length = g.n) ∧
    (∀ c < B0, ∀ u < g.n,
      (bit2 (uncolorPhase g fr st).1.cls_groups c u = true ↔
        (uncolorPhase g fr st).1.vtx_to_cls.getD u none = some c)) ∧
    (uncolorPhase g fr st).1.vtx_to_cls.getD fr.vertex none = none ∧
    (∀ idx, bit2 (uncolorPhase g fr st).1.cls_groups idx fr.vertex = false) ∧
    (∀ u, u ≠ fr.vertex →
      (uncolorPhase g fr st).1.vtx_to_cls.getD u none = st.vtx_to_cls.getD u none) := by
  have hvn : fr.vertex < g.n := hinv.frames_lt fr (by rw [hstack]; exact List.mem_cons_self fr rest)
  cases hc : fr.color with
  | none =>
    have hunc : st.vtx_to_cls.getD fr.vertex none = none :=
      hinv.top_uncolored fr rest hstack hc
    have hbits : ∀ idx, bit2 st.cls_groups idx fr.vertex = false := by
      intro idx
      by_cases hidx : idx < B0
      · cases hbi : bit2 st.cls_groups idx fr.vertex with
        | false => rfl
        | true =>
          exfalso
          have := (hinv.consistent idx hidx fr.vertex hvn).mp hbi
          rw [hunc] at this
          cases this
      · unfold bit2
        rw [List.getD_eq_default st.cls_groups [] (by rw [hinv.len_groups]; omega)]
        rfl
    unfold uncolorPhase
    rw [hc]
    exact ⟨hinv.len_coloring, hinv.len_groups, hinv.row_len, hinv.consistent, hunc, hbits,
      fun u _ => rfl⟩
  | some c =>
    have hmatch : st.vtx_to_cls.getD fr.vertex none = some c :=
      hinv.frames_match fr (by rw [hstack]; exact List.mem_cons_self fr rest) c hc
    unfold uncolorPhase
    rw [hc]
    dsimp only
    rw [uncolor_vertex_vtx_to_cls, uncolor_vertex_cls_groups]
    have hlen1 : (st.vtx_to_cls.set fr.vertex none).length = g.n := by
      rw [List.length_set]; exact hinv.len_coloring
    have hlen2 : (set2 st.cls_groups c fr.vertex false).length = B0 := by
      unfold set2; rw [List.length_set]; exact hinv.len_groups
    have hrow : ∀ r ∈ set2 st.cls_groups c fr.vertex false, r.length = g.n := by
      intro r hr
      unfold set2 at hr
      by_cases hcB : c < st.cls_groups.length
      · rcases List.mem_or_eq_of_mem_set hr with hr2 | hr2
        · exact hinv.row_len r hr2
        · subst hr2
          rw [List.length_set]
          refine hinv.row_len _ ?_
          rw [List.getD_eq_getElem _ _ hcB]
          exact List.getElem_mem hcB
      · rw [List.set_eq_of_length_le (by omega)] at hr
        exact hinv.row_len r hr
    have hgelem : ∀ u, u ≠ fr.vertex →
        (st.vtx_to_cls.set fr.vertex none).getD u none = st.vtx_to_cls.getD u none :=
      fun u hu => getD_set_ne _ _ _ _ _ (Ne.symm hu)
    have hself : (st.vtx_to_cls.set fr.vertex none).getD fr.vertex none = none :=
      getD_set_self _ _ _ _ (by rw [hinv.len_coloring]; exact hvn)
    have hbits : ∀ idx, bit2 (set2 st.cls_groups c fr.vertex false) idx fr.vertex = false := by
      intro idx
      by_cases hic : idx = c
      · subst hic
        unfold bit2 set2
        by_cases hcB : idx < st.cls_groups.length
        · rw [getD_set_self _ _ _ _ hcB]
          by_cases hvrow : fr.vertex < (st.cls_groups.getD idx []).length
          · exact getD_set_self _ _ _ _ hvrow
          · rw [List.getD_eq_default ((st.cls_groups.getD idx []).set fr.vertex false) false (by rw [List.length_set]; omega)]
        · rw [List.set_eq_of_length_le (by omega),
            List.getD_eq_default st.cls_groups [] (by omega)]
          rfl
      · rw [bit2_set2_ne _ (fun he => hic he.symm)]
        by_cases hidx : idx < B0
        · cases hbi : bit2 st.cls_groups idx fr.vertex with
          | false => rfl
          | true =>
            exfalso
            have h2 := (hinv.consistent idx hidx fr.vertex hvn).mp hbi
            rw [hmatch] at h2
            exact hic (Option.some_inj.mp h2.symm)
        · unfold bit2
          rw [List.getD_eq_default st.cls_groups [] (by rw [hinv.len_groups]; omega)]
          rfl
    have hcons : ∀ c2 < B0, ∀ u < g.n,
        (bit2 (set2 st.cls_groups c fr.vertex false) c2 u = true ↔
          (st.vtx_to_cls.set fr.vertex none).getD u none = some c2) := by
      intro c2 hc2 u hu
      by_cases huv : u = fr.vertex
      · subst huv
        rw [hself, hbits c2]
        constructor
        · intro hx; cases hx
        · intro hx; cases hx
      · rw [hgelem u huv]
        by_cases hcc : c2 = c
        · subst hcc
          unfold bit2 set2
          by_cases hcB : c2 < st.cls_groups.length
          · rw [getD_set_self _ _ _ _ hcB, getD_set_ne _ _ _ _ _ (fun he => huv he.symm)]
            exact hinv.consistent c2 hc2 u hu
          · rw [List.set_eq_of_length_le (by omega)]
            exact hinv.consistent c2 hc2 u hu
        · rw [bit2_set2_ne _ (fun he => hcc he.symm)]
          exact hinv.consistent c2 hc2 u hu
    exact ⟨hlen1, hlen2, hrow, hcons, hself, hbits, hgelem⟩

theorem bit2_set2_ne2 {m : List (List Bool)} {i j j2 : Nat} (a : Bool) (h : j ≠ j2) :
    bit2 (set2 m i j a) i j2 = bit2 m i j2 := by
  unfold bit2 set2
  by_cases hi : i < m.length
  · rw [getD_set_self _ _ _ _ hi, getD_set_ne _ _ _ _ _ h]
  · rw [List.set_eq_of_length_le (by omega)]

theorem commit_lists_facts (g : GraphData) (B0 : Nat) (V : List (Option Nat))
    (G : List (List Bool)) (v c : Nat) (hvn : v < g.n) (hcB : c < B0)
    (hlen1 : V.length = g.n) (hlen2 : G.length = B0)
    (hrow : ∀ r ∈ G, r.length = g.n)
    (hcons : ∀ c2 < B0, ∀ u < g.n, (bit2 G c2 u = true ↔ V.getD u none = some c2))
    (hunc : V.getD v none = none)
    (hbits : ∀ idx, bit2 G idx v = false) :
    (V.set v (some c)).length = g.n ∧
    (set2 G c v true).length = B0 ∧
    (∀ r ∈ set2 G c v true, r.length = g.n) ∧
    (∀ c2 < B0, ∀ u < g.n,
      (bit2 (set2 G c v true) c2 u = true ↔ (V.set v (some c)).getD u none = some c2)) ∧
    (V.set v (some c)).getD v none = some c ∧
    (∀ u, u ≠ v → (V.set v (some c)).getD u none = V.getD u none) := by
  have hcG : c < G.length := by omega
  have hrowc : (G.getD c []).length = g.n := by
    refine hrow _ ?_
    rw [List.getD_eq_getElem _ _ hcG]
    exact List.getElem_mem hcG
  have hgl1 : (V.set v (some c)).length = g.n := by rw [List.length_set]; exact hlen1
  have hgl2 : (set2 G c v true).length = B0 := by
    unfold set2; rw [List.length_set]; exact hlen2
  have hgrow : ∀ r ∈ set2 G c v true, r.length = g.n := by
    intro r hr
    unfold set2 at hr
    rcases List.mem_or_eq_of_mem_set hr with hr2 | hr2
    · exact hrow r hr2
    · subst hr2
      rw [List.length_set]
      exact hrowc
  have hself : (V.set v (some c)).getD v none = some c :=
    getD_set_self _ _ _ _ (by omega)
  have hother : ∀ u, u ≠ v → (V.set v (some c)).getD u none = V.getD u none :=
    fun u hu => getD_set_ne _ _ _ _ _ (Ne.symm hu)
  have hbitself : bit2 (set2 G c v true) c v = true := by
    unfold bit2 set2
    rw [getD_set_self _ _ _ _ hcG, getD_set_self _ _ _ _ (by omega)]
  refine ⟨hgl1, hgl2, hgrow, ?_, hself, hother⟩
  intro c2 hc2 u hu
  by_cases huv : u = v
  · subst huv
    by_cases hcc : c2 = c
    · subst hcc
      rw [hbitself, hself]
      exact ⟨fun _ => rfl, fun _ => rfl⟩
    · rw [bit2_set2_ne _ (fun he => hcc he.symm), hbits c2, hself]
      constructor
      · intro hx; cases hx
      · intro hx
        exact absurd (Option.some_inj.mp hx).symm hcc
  · rw [hother u huv]
    by_cases hcc : c2 = c
    · subst hcc
      rw [bit2_set2_ne2 _ (fun he => huv he.symm)]
      exact hcons c2 hc2 u hu
    · rw [bit2_set2_ne _ (fun he => hcc he.symm)]
      exact hcons c2 hc2 u hu

theorem stepFn_inv (g : GraphData) (mode target B0 : Nat) (fr : Frame) (rest : List Frame)
    (st : DState) (hstack : st.stack = fr :: rest) (hinv : Inv g B0 st) :
    Inv g B0 (stepFn g mode target fr rest st).1 := by
  obtain ⟨hL1, hL2, hL3, hC, hU, hB, hO⟩ := uncolorPhase_facts g B0 st fr rest hstack hinv
  have hbf := uncolorPhase_best_found g fr st
  have hbc := uncolorPhase_best_coloring g fr st
  have hvn : fr.vertex < g.n :=
    hinv.frames_lt fr (by rw [hstack]; exact List.mem_cons_self fr rest)
  have hfrcu : fr.colors_used ≤ B0 :=
    hinv.frames_cu fr (by rw [hstack]; exact List.mem_cons_self fr rest)
  have hrest_comm : ∀ f ∈ rest, f.color.isSome = true := hinv.rest_committed fr rest hstack
  have hnd0 : (fr.vertex :: rest.map Frame.vertex).Nodup := by
    have h2 := hinv.stack_nodup
    rw [hstack] at h2
    simpa using h2
  have hvnotrest : fr.vertex ∉ rest.map Frame.vertex := (List.nodup_cons.mp hnd0).1
  have hndrest : (rest.map Frame.vertex).Nodup := (List.nodup_cons.mp hnd0).2
  have hrest_ne : ∀ f ∈ rest, f.vertex ≠ fr.vertex := by
    intro f hf he
    exact hvnotrest (he ▸ List.mem_map_of_mem Frame.vertex hf)
  have hrest_lt : ∀ f ∈ rest, f.vertex < g.n :=
    fun f hf => hinv.frames_lt f (by rw [hstack]; exact List.mem_cons_of_mem fr hf)
  have hrest_cu : ∀ f ∈ rest, f.colors_used ≤ B0 :=
    fun f hf => hinv.frames_cu f (by rw [hstack]; exact List.mem_cons_of_mem fr hf)
  have hrest_color : ∀ f ∈ rest, ∀ c, f.color = some c → c < f.colors_used :=
    fun f hf => hinv.frames_color f (by rw [hstack]; exact List.mem_cons_of_mem fr hf)
  have hrest_match : ∀ f ∈ rest, ∀ c, f.color = some c →
      (uncolorPhase g fr st).1.vtx_to_cls.getD f.vertex none = some c := by
    intro f hf c hc
    rw [hO f.vertex (hrest_ne f hf)]
    exact hinv.frames_match f (by rw [hstack]; exact List.mem_cons_of_mem fr hf) c hc
  simp only [stepFn]
  obtain hcc := chooseColor_cases g (uncolorPhase g fr st).1 fr.vertex
    (uncolorPhase g fr st).2 fr.colors_used
  generalize hup : uncolorPhase g fr st = up at *
  obtain ⟨st1, sc⟩ := up
  dsimp only at *
  generalize hnc : chooseColor g st1 fr.vertex sc fr.colors_used = nc at *
  have hnclt : nc < (if nc = fr.colors_used then fr.colors_used + 1 else fr.colors_used) := by
    rcases hcc with h | h
    · rw [if_pos h, h]; omega
    · rw [if_neg (by omega)]; omega
  have hcu2le : (if nc = fr.colors_used then fr.colors_used + 1 else fr.colors_used)
      ≤ fr.colors_used + 1 := by split <;> omega
  generalize hcu2 : (if nc = fr.colors_used then fr.colors_used + 1 else fr.colors_used)
    = cu2 at hnclt hcu2le ⊢
  split
  · next hguard =>
    exact
      { len_coloring := hL1
        len_groups := hL2
        row_len := hL3
        best_le := by rw [hbf]; exact hinv.best_le
        improved := by rw [hbf, hbc]; exact hinv.improved
        consistent := hC
        frames_lt := hrest_lt
        frames_cu := hrest_cu
        frames_color := hrest_color
        frames_match := hrest_match
        rest_committed := by
          intro f2 l2 he f hf
          cases he
          exact hrest_comm f (List.mem_cons_of_mem f2 hf)
        top_uncolored := by
          intro f2 l2 he hnone
          cases he
          exfalso
          have h3 := hrest_comm f2 (List.mem_cons_self f2 l2)
          rw [hnone] at h3
          cases h3
        stack_nodup := hndrest }
  · next hguard =>
    have hguard2 : cu2 < st1.best_found := by omega
    have hcu2lt : cu2 < st.best_found := by rw [← hbf]; omega
    have hcu2B : cu2 < B0 := by
      have h3 := hinv.best_le
      omega
    have hncB : nc < B0 := by omega
    obtain ⟨hg1, hg2, hg3, hg4, hg5, hg6⟩ :=
      commit_lists_facts g B0 st1.vtx_to_cls st1.cls_groups fr.vertex nc hvn hncB
        hL1 hL2 hL3 hC hU hB
    have hmk : ∀ X : DState,
        X.vtx_to_cls = st1.vtx_to_cls.set fr.vertex (some nc) →
        X.cls_groups = set2 st1.cls_groups nc fr.vertex true →
        X.best_found ≤ B0 → (X.best_coloring.isSome = true → X.best_found < B0) →
        (∀ f ∈ X.stack, f.vertex < g.n) → (∀ f ∈ X.stack, f.colors_used ≤ B0) →
        (∀ f ∈ X.stack, ∀ c, f.color = some c → c < f.colors_used) →
        (∀ f ∈ X.stack, ∀ c, f.color = some c → X.vtx_to_cls.getD f.vertex none = some c) →
        (∀ f2 l2, X.stack = f2 :: l2 → ∀ f ∈ l2, f.color.isSome = true) →
        (∀ f2 l2, X.stack = f2 :: l2 → f2.color = none →
          X.vtx_to_cls.getD f2.vertex none = none) →
        (X.stack.map Frame.vertex).Nodup → Inv g B0 X := by
      intro X e1 e2 b1 b2 k1 k2 k3 k4 k5 k6 k7
      exact
        { len_coloring := by rw [e1]; exact hg1
          len_groups := by rw [e2]; exact hg2
          row_len := by rw [e2]; exact hg3
          best_le := b1
          improved := b2
          consistent := by rw [e1, e2]; exact hg4
          frames_lt := k1
          frames_cu := k2
          frames_color := k3
          frames_match := k4
          rest_committed := k5
          top_uncolored := k6
          stack_nodup := k7 }
    have hcvx : ∀ s : List Frame,
        (color_vertex g { st1 with stack := s } fr.vertex nc).vtx_to_cls
          = st1.vtx_to_cls.set fr.vertex (some nc) := fun s => color_vertex_vtx_to_cls ..
    have hcgx : ∀ s : List Frame,
        (color_vertex g { st1 with stack := s } fr.vertex nc).cls_groups
          = set2 st1.cls_groups nc fr.vertex true := fun s => color_vertex_cls_groups ..
    have hcsx : ∀ s : List Frame,
        (color_vertex g { st1 with stack := s } fr.vertex nc).stack = s :=
      fun s => color_vertex_stack ..
    have hcbx : ∀ s : List Frame,
        (color_vertex g { st1 with stack := s } fr.vertex nc).best_found = st1.best_found :=
      fun s => color_vertex_best_found ..
    have hcolored_frames : ∀ f ∈ (⟨fr.vertex, some nc, cu2⟩ : Frame) :: rest, ∀ c,
        f.color = some c →
        (st1.vtx_to_cls.set fr.vertex (some nc)).getD f.vertex none = some c := by
      intro f hf c hc
      rcases List.mem_cons.mp hf with rfl | hf2
      · cases hc
        exact hg5
      · rw [hg6 f.vertex (hrest_ne f hf2)]
        exact hrest_match f hf2 c hc
    have hframes_lt2 : ∀ f ∈ (⟨fr.vertex, some nc, cu2⟩ : Frame) :: rest, f.vertex < g.n := by
      intro f hf
      rcases List.mem_cons.mp hf with rfl | hf2
      · exact hvn
      · exact hrest_lt f hf2
    have hframes_cu2 : ∀ f ∈ (⟨fr.vertex, some nc, cu2⟩ : Frame) :: rest,
        f.colors_used ≤ B0 := by
      intro f hf
      rcases List.mem_cons.mp hf with rfl | hf2
      · exact le_of_lt hcu2B
      · exact hrest_cu f hf2
    have hframes_color2 : ∀ f ∈ (⟨fr.vertex, some nc, cu2⟩ : Frame) :: rest, ∀ c,
        f.color = some c → c < f.colors_used := by
      intro f hf c hc
      rcases List.mem_cons.mp hf with rfl | hf2
      · cases hc
        exact hnclt
      · exact hrest_color f hf2 c hc
    have hnd2 : (((⟨fr.vertex, some nc, cu2⟩ : Frame) :: rest).map Frame.vertex).Nodup := by
      simpa using hnd0
    split
    · next hnone =>
      split
      · next hmode =>
        refine hmk _ (hcvx _) (hcgx _) (le_of_lt hcu2B) (fun _ => hcu2B) ?_ ?_ ?_ ?_ ?_ ?_ ?_
        all_goals simp only [hcsx, hcvx]
        · exact hframes_lt2
        · exact hframes_cu2
        · exact hframes_color2
        · exact fun f hf c hc => hcolored_frames f hf c hc
        · intro f2 l2 he f hf
          cases he
          exact hrest_comm f hf
        · intro f2 l2 he hnone2
          cases he
          cases hnone2
        · exact hnd2
      · split
        · next htarget =>
          refine hmk _ (hcvx _) (hcgx _) (le_of_lt hcu2B) (fun _ => hcu2B) ?_ ?_ ?_ ?_ ?_ ?_ ?_
          all_goals simp only [hcsx, hcvx]
          · exact hframes_lt2
          · exact hframes_cu2
          · exact hframes_color2
          · exact fun f hf c hc => hcolored_frames f hf c hc
          · intro f2 l2 he f hf
            cases he
            exact hrest_comm f hf
          · intro f2 l2 he hnone2
            cases he
            cases hnone2
          · exact hnd2
        · next htarget =>
          refine hmk _ (hcvx _) (hcgx _) (le_of_lt hcu2B) (fun _ => hcu2B) ?_ ?_ ?_ ?_ ?_ ?_ ?_
          all_goals simp only [hcsx, hcvx, List.tail_cons]
          · exact hrest_lt
          · exact hrest_cu
          · exact hrest_color
          · intro f hf c hc
            rw [hg6 f.vertex (hrest_ne f hf)]
            exact hrest_match f hf c hc
          · intro f2 l2 he f hf
            cases he
            exact hrest_comm f (List.mem_cons_of_mem f2 hf)
          · intro f2 l2 he hnone2
            cases he
            exfalso
            have h3 := hrest_comm f2 (List.mem_cons_self f2 l2)
            rw [hnone2] at h3
            cases h3
          · exact hndrest
    · next w hw =>
      have hwfacts := (nextVertex_spec g
        (color_vertex g { st1 with stack := ⟨fr.vertex, some nc, cu2⟩ :: rest } fr.vertex nc)
        w).mp hw
      have hwn : w < g.n := hwfacts.1.1
      have hwunc : ((st1.vtx_to_cls.set fr.vertex (some nc)).getD w none).isNone = true := by
        have h3 := hwfacts.1.2
        rwa [hcvx] at h3
      have hwunc2 : (st1.vtx_to_cls.set fr.vertex (some nc)).getD w none = none :=
        Option.isNone_iff_eq_none.mp hwunc
      have hwne : w ≠ fr.vertex := by
        intro he
        rw [he, hg5] at hwunc2
        cases hwunc2
      have hwnotrest : w ∉ rest.map Frame.vertex := by
        intro hmem
        obtain ⟨f, hf, hfe⟩ := List.mem_map.mp hmem
        have h3 := hrest_comm f hf
        cases hcol : f.color with
        | none => rw [hcol] at h3; cases h3
        | some cf =>
          have h4 := hcolored_frames f (List.mem_cons_of_mem _ hf) cf hcol
          rw [hfe, hwunc2] at h4
          cases h4
      refine hmk _ (hcvx _) (hcgx _) (by rw [hcbx, hbf]; exact hinv.best_le)
        (by rw [hcbx, hbf, color_vertex_best_coloring, hbc]; exact hinv.improved)
        ?_ ?_ ?_ ?_ ?_ ?_ ?_
      all_goals simp only [hcsx, hcvx]
      · intro f hf
        rcases List.mem_cons.mp hf with rfl | hf2
        · exact hwn
        · exact hframes_lt2 f hf2
      · intro f hf
        rcases List.mem_cons.mp hf with rfl | hf2
        · exact le_of_lt hcu2B
        · exact hframes_cu2 f hf2
      · intro f hf c hc
        rcases List.mem_cons.mp hf with rfl | hf2
        · cases hc
        · exact hframes_color2 f hf2 c hc
      · intro f hf c hc
        rcases List.mem_cons.mp hf with rfl | hf2
        · cases hc
        · exact hcolored_frames f hf2 c hc
      · intro f2 l2 he f hf
        injection he with he1 he2
        subst he2
        rcases List.mem_cons.mp hf with rfl | hf2
        · rfl
        · exact hrest_comm f hf2
      · intro f2 l2 he hnone2
        injection he with he1 he2
        subst he1
        exact hwunc2
      · simp only [List.map_cons, List.nodup_cons]
        refine ⟨?_, by simpa using hnd0⟩
        intro hmem
        rcases List.mem_cons.mp hmem with he | hmem2
        · exact hwne he
        · exact hwnotrest hmem2

theorem Inv_init (g : GraphData) (B0 : Nat) : Inv g B0 (initState g B0) := by
  have hcol : ∀ u, (zeroState g B0).vtx_to_cls.getD u none = none := by
    intro u
    unfold zeroState
    dsimp only
    by_cases hu : u < g.n
    · exact getD_replicate _ _ _ _ hu
    · exact List.getD_eq_default _ _ (by rw [List.length_replicate]; omega)
  have hzero : ∀ c, ∀ u, bit2 (zeroState g B0).cls_groups c u = false := by
    intro c u
    unfold bit2 zeroState
    dsimp only
    by_cases hc : c < B0
    · rw [getD_replicate _ _ _ _ hc]
      by_cases hu : u < g.n
      · exact getD_replicate _ _ _ _ hu
      · exact List.getD_eq_default _ _ (by rw [List.length_replicate]; omega)
    · rw [List.getD_eq_default (List.replicate B0 (List.replicate g.n false)) []
        (by rw [List.length_replicate]; omega)]
      rfl
  have hcons : ∀ c < B0, ∀ u < g.n,
      (bit2 (zeroState g B0).cls_groups c u = true ↔
        (zeroState g B0).vtx_to_cls.getD u none = some c) := by
    intro c _ u _
    rw [hzero c u, hcol u]
    constructor
    · intro hx; cases hx
    · intro hx; cases hx
  have hlen1 : (zeroState g B0).vtx_to_cls.length = g.n := List.length_replicate ..
  have hlen2 : (zeroState g B0).cls_groups.length = B0 := List.length_replicate ..
  have hrow : ∀ r ∈ (zeroState g B0).cls_groups, r.length = g.n := by
    intro r hr
    have h2 := List.eq_of_mem_replicate hr
    rw [h2]
    exact List.length_replicate ..
  unfold initState
  show Inv g B0 (match pyMax (dsatur_score g (zeroState g B0)) (List.range g.n) with
    | some v => { zeroState g B0 with stack := [⟨v, none, 0⟩] }
    | none => zeroState g B0)
  split
  · next v heq =>
    have hvn : v < g.n := by
      have hmem := ((pyMax_sorted_spec (dsatur_score g (zeroState g B0)) (List.range g.n)
        (List.pairwise_lt_range g.n) v).mp heq).1
      exact List.mem_range.mp hmem
    exact
      { len_coloring := hlen1
        len_groups := hlen2
        row_len := hrow
        best_le := le_refl B0
        improved := by intro hx; cases hx
        consistent := hcons
        frames_lt := by
          intro f hf
          rcases List.mem_cons.mp hf with rfl | hf2
          · exact hvn
          · cases hf2
        frames_cu := by
          intro f hf
          rcases List.mem_cons.mp hf with rfl | hf2
          · exact Nat.zero_le B0
          · cases hf2
        frames_color := by
          intro f hf c hc
          rcases List.mem_cons.mp hf with rfl | hf2
          · cases hc
          · cases hf2
        frames_match := by
          intro f hf c hc
          rcases List.mem_cons.mp hf with rfl | hf2
          · cases hc
          · cases hf2
        rest_committed := by
          intro f2 l2 he f hf
          injection he with he1 he2
          subst he2
          cases hf
        top_uncolored := by
          intro f2 l2 he hnone2
          injection he with he1 he2
          subst he1
          exact hcol v
        stack_nodup := by simp }
  · next heq =>
    exact
      { len_coloring := hlen1
        len_groups := hlen2
        row_len := hrow
        best_le := le_refl B0
        improved := by intro hx; cases hx
        consistent := hcons
        frames_lt := by intro f hf; cases hf
        frames_cu := by intro f hf; cases hf
        frames_color := by intro f hf _ _; cases hf
        frames_match := by intro f hf _ _; cases hf
        rest_committed := by intro f2 l2 he; cases he
        top_uncolored := by intro f2 l2 he; cases he
        stack_nodup := by show (([] : List Frame).map Frame.vertex).Nodup; simp }

theorem runSteps_inv (g : GraphData) (mode target B0 : Nat) (k : Nat) (st : DState)
    (hinv : Inv g B0 st) : Inv g B0 (runSteps g mode target k st) := by
  induction k generalizing st with
  | zero => exact hinv
  | succ k ih =>
    cases hs : st.stack with
    | nil =>
      rw [runSteps, hs]
      exact hinv
    | cons fr rest =>
      rw [runSteps, hs]
      show Inv g B0 (match stepFn g mode target fr rest st with
        | (s2, true) => s2
        | (s2, false) => runSteps g mode target k s2)
      have hstep := stepFn_inv g mode target B0 fr rest st hs hinv
      cases hstepeq : stepFn g mode target fr rest st with
      | mk st1 brk =>
        rw [hstepeq] at hstep
        cases brk with
        | true => exact hstep
        | false => exact ih st1 hstep

theorem zipWith_and_set_false (a : List Bool) :
    ∀ (b : List Bool) (i : Nat), b.getD i false = false →
      List.zipWith (fun x y => x && y) (a.set i false) b
        = List.zipWith (fun x y => x && y) a b := by
  induction a with
  | nil => intro b i _; rfl
  | cons x a ih =>
    intro b i hb
    cases b with
    | nil => simp
    | cons y b2 =>
      cases i with
      | zero =>
        have hy : y = false := hb
        simp [hy]
      | succ i =>
        simp only [List.set_cons_succ, List.zipWith_cons_cons]
        rw [ih b2 i hb]

theorem bandIsZero_self_bit (a b : List Bool) (i : Nat) (hb : b.getD i false = false) :
    bandIsZero (a.set i false) b = bandIsZero a b := by
  unfold bandIsZero
  rw [zipWith_and_set_false a b i hb]

/-- C9: at every evaluation of the color-compatibility test
`(adj_vtx_matr[vertex] & cls_groups[idx]).is_zero()` (dsatur.py line 190),
the vertex being decided — the vertex of the frame on top of the stack,
after the retraction at the start of the iteration — holds no color and is
a member of no `cls_groups` row, so the self-bit stored at
`adj_vtx_matr[vertex][vertex]` never changes the outcome: the test equals
the same test with the self-bit cleared, for every reachable state of any
`__dsatur` run (any mode, target and initial bound). -/
theorem dsatur_compat_test_self_bit_inert (g : GraphData) (B0 mode target k : Nat)
    (fr : Frame) (rest : List Frame)
    (hstack : (runSteps g mode target k (initState g B0)).stack = fr :: rest) :
    ∀ idx : Nat,
      bandIsZero ((g.adj_vtx_matr.getD fr.vertex []).set fr.vertex false)
          ((uncolorPhase g fr
            (runSteps g mode target k (initState g B0))).1.cls_groups.getD idx [])
        = bandIsZero (g.adj_vtx_matr.getD fr.vertex [])
            ((uncolorPhase g fr
              (runSteps g mode target k (initState g B0))).1.cls_groups.getD idx []) ∧
      (uncolorPhase g fr
        (runSteps g mode target k (initState g B0))).1.vtx_to_cls.getD fr.vertex none
        = none ∧
      bit2 (uncolorPhase g fr
        (runSteps g mode target k (initState g B0))).1.cls_groups idx fr.vertex = false := by
  have hinv := runSteps_inv g mode target B0 k (initState g B0) (Inv_init g B0)
  obtain ⟨hL1, hL2, hL3, hC, hU, hB, hO⟩ :=
    uncolorPhase_facts g B0 (runSteps g mode target k (initState g B0)) fr rest hstack hinv
  intro idx
  exact ⟨bandIsZero_self_bit _ _ fr.vertex (hB idx), hU, hB idx⟩

/-- Witness for C9 at the initial state of a greedy run on the path
graph: the first decided vertex is vertex 1. -/
theorem dsatur_compat_test_self_bit_inert_witness :
    (runSteps (mkGraphData pathEdges) 0 1 0 (initState (mkGraphData pathEdges) 4)).stack
        = ⟨1, none, 0⟩ :: [] ∧
      (∀ idx : Nat,
        bandIsZero (((mkGraphData pathEdges).adj_vtx_matr.getD 1 []).set 1 false)
            ((uncolorPhase (mkGraphData pathEdges) ⟨1, none, 0⟩
              (runSteps (mkGraphData pathEdges) 0 1 0
                (initState (mkGraphData pathEdges) 4))).1.cls_groups.getD idx [])
          = bandIsZero ((mkGraphData pathEdges).adj_vtx_matr.getD 1 [])
              ((uncolorPhase (mkGraphData pathEdges) ⟨1, none, 0⟩
                (runSteps (mkGraphData pathEdges) 0 1 0
                  (initState (mkGraphData pathEdges) 4))).1.cls_groups.getD idx []) ∧
        (uncolorPhase (mkGraphData pathEdges) ⟨1, none, 0⟩
          (runSteps (mkGraphData pathEdges) 0 1 0
            (initState (mkGraphData pathEdges) 4))).1.vtx_to_cls.getD 1 none = none ∧
        bit2 (uncolorPhase (mkGraphData pathEdges) ⟨1, none, 0⟩
          (runSteps (mkGraphData pathEdges) 0 1 0
            (initState (mkGraphData pathEdges) 4))).1.cls_groups idx 1 = false) :=
  ⟨by rfl,
    dsatur_compat_test_self_bit_inert (mkGraphData pathEdges) 4 0 1 0 ⟨1, none, 0⟩ []
      (by rfl)⟩

theorem nodup_lt_length_le (l : List Nat) (h : l.Nodup) (n : Nat) (hl : ∀ x ∈ l, x < n) :
    l.length ≤ n := by
  have h1 : l.toFinset.card = l.length := List.toFinset_card_of_nodup h
  have h2 : l.toFinset ⊆ Finset.range n := by
    intro x hx
    simp only [List.mem_toFinset] at hx
    exact Finset.mem_range.mpr (hl x hx)
  have h3 := Finset.card_le_card h2
  simpa [h1] using h3

theorem frameWeight_le (B0 : Nat) (fr : Frame) : frameWeight B0 fr ≤ B0 + 2 := by
  unfold frameWeight
  cases fr.color with
  | none => exact le_refl _
  | some c =>
    show B0 + 1 - c ≤ B0 + 2
    omega

theorem frameWeight_pos (B0 : Nat) (fr : Frame) (h : ∀ c, fr.color = some c → c ≤ B0) :
    1 ≤ frameWeight B0 fr := by
  unfold frameWeight
  cases hc : fr.color with
  | none =>
    show 1 ≤ B0 + 2
    omega
  | some c =>
    have h2 := h c hc
    show 1 ≤ B0 + 1 - c
    omega

theorem stackMeasure_cons_lt (B0 n : Nat) (fr : Frame) (rest : List Frame)
    (hw : 1 ≤ frameWeight B0 fr) :
    stackMeasure B0 n rest < stackMeasure B0 n (fr :: rest) := by
  rw [stackMeasure]
  have hpow : 0 < (B0 + 3) ^ (n - (fr :: rest).length) :=
    Nat.pos_pow_of_pos _ (by omega)
  have : 0 < frameWeight B0 fr * (B0 + 3) ^ (n - (fr :: rest).length) :=
    Nat.mul_pos (by omega) hpow
  omega

theorem stackMeasure_top_lt (B0 n : Nat) (fr fr2 : Frame) (rest : List Frame)
    (h : frameWeight B0 fr2 < frameWeight B0 fr) :
    stackMeasure B0 n (fr2 :: rest) < stackMeasure B0 n (fr :: rest) := by
  rw [stackMeasure, stackMeasure]
  have hlen : (fr2 :: rest).length = (fr :: rest).length := rfl
  rw [hlen]
  have hpow : 0 < (B0 + 3) ^ (n - (fr :: rest).length) :=
    Nat.pos_pow_of_pos _ (by omega)
  have h2 : frameWeight B0 fr2 * (B0 + 3) ^ (n - (fr :: rest).length)
      < frameWeight B0 fr * (B0 + 3) ^ (n - (fr :: rest).length) :=
    Nat.mul_lt_mul_of_lt_of_le h (le_refl _) hpow
  omega

theorem stackMeasure_push_lt (B0 n : Nat) (g2 fr2 fr : Frame) (rest : List Frame)
    (h2 : frameWeight B0 fr2 < frameWeight B0 fr)
    (hlen : (fr :: rest).length + 1 ≤ n) :
    stackMeasure B0 n (g2 :: fr2 :: rest) < stackMeasure B0 n (fr :: rest) := by
  have hL : (g2 :: fr2 :: rest).length = (fr :: rest).length + 1 := rfl
  have he : n - (fr :: rest).length = (n - ((fr :: rest).length + 1)) + 1 := by omega
  rw [stackMeasure, stackMeasure, stackMeasure]
  have hlen2 : (fr2 :: rest).length = (fr :: rest).length := rfl
  rw [hL, hlen2, he, pow_succ]
  have hw1 : frameWeight B0 g2 * (B0 + 3) ^ (n - ((fr :: rest).length + 1))
      < ((B0 + 3) ^ (n - ((fr :: rest).length + 1))) * (B0 + 3) := by
    have hg := frameWeight_le B0 g2
    have hpow : 0 < (B0 + 3) ^ (n - ((fr :: rest).length + 1)) :=
      Nat.pos_pow_of_pos _ (by omega)
    calc frameWeight B0 g2 * (B0 + 3) ^ (n - ((fr :: rest).length + 1))
        ≤ (B0 + 2) * (B0 + 3) ^ (n - ((fr :: rest).length + 1)) :=
          Nat.mul_le_mul_right _ hg
      _ < (B0 + 3) * (B0 + 3) ^ (n - ((fr :: rest).length + 1)) := by
          exact Nat.mul_lt_mul_of_lt_of_le (by omega) (le_refl _) hpow
      _ = ((B0 + 3) ^ (n - ((fr :: rest).length + 1))) * (B0 + 3) := by ring
  have hw2 : frameWeight B0 fr2 * ((B0 + 3) ^ (n - ((fr :: rest).length + 1)) * (B0 + 3))
      + ((B0 + 3) ^ (n - ((fr :: rest).length + 1))) * (B0 + 3)
      ≤ frameWeight B0 fr * ((B0 + 3) ^ (n - ((fr :: rest).length + 1)) * (B0 + 3)) := by
    have h3 : frameWeight B0 fr2 + 1 ≤ frameWeight B0 fr := h2
    calc frameWeight B0 fr2 * ((B0 + 3) ^ (n - ((fr :: rest).length + 1)) * (B0 + 3))
          + ((B0 + 3) ^ (n - ((fr :: rest).length + 1))) * (B0 + 3)
        = (frameWeight B0 fr2 + 1) * ((B0 + 3) ^ (n - ((fr :: rest).length + 1)) * (B0 + 3)) := by
          ring
      _ ≤ frameWeight B0 fr * ((B0 + 3) ^ (n - ((fr :: rest).length + 1)) * (B0 + 3)) :=
          Nat.mul_le_mul_right _ h3
  omega

theorem stepFn_measure (g : GraphData) (mode target B0 : Nat) (fr : Frame)
    (rest : List Frame) (st : DState) (hstack : st.stack = fr :: rest)
    (hinv : Inv g B0 st) :
    (stepFn g mode target fr rest st).2 = true ∨
      stackMeasure B0 g.n (stepFn g mode target fr rest st).1.stack
        < stackMeasure B0 g.n (fr :: rest) := by
  obtain ⟨hL1, hL2, hL3, hC, hU, hB, hO⟩ := uncolorPhase_facts g B0 st fr rest hstack hinv
  have hbf := uncolorPhase_best_found g fr st
  have hvn : fr.vertex < g.n :=
    hinv.frames_lt fr (by rw [hstack]; exact List.mem_cons_self fr rest)
  have hfrcu : fr.colors_used ≤ B0 :=
    hinv.frames_cu fr (by rw [hstack]; exact List.mem_cons_self fr rest)
  have hfrcolor : ∀ c, fr.color = some c → c < fr.colors_used :=
    hinv.frames_color fr (by rw [hstack]; exact List.mem_cons_self fr rest)
  have hrest_comm : ∀ f ∈ rest, f.color.isSome = true := hinv.rest_committed fr rest hstack
  have hnd0 : (fr.vertex :: rest.map Frame.vertex).Nodup := by
    have h2 := hinv.stack_nodup
    rw [hstack] at h2
    simpa using h2
  have hrest_ne : ∀ f ∈ rest, f.vertex ≠ fr.vertex := by
    intro f hf he
    exact (List.nodup_cons.mp hnd0).1 (he ▸ List.mem_map_of_mem Frame.vertex hf)
  have hrest_lt : ∀ f ∈ rest, f.vertex < g.n :=
    fun f hf => hinv.frames_lt f (by rw [hstack]; exact List.mem_cons_of_mem fr hf)
  have hrest_match : ∀ f ∈ rest, ∀ c, f.color = some c →
      (uncolorPhase g fr st).1.vtx_to_cls.getD f.vertex none = some c := by
    intro f hf c hc
    rw [hO f.vertex (hrest_ne f hf)]
    exact hinv.frames_match f (by rw [hstack]; exact List.mem_cons_of_mem fr hf) c hc
  have hwfr : 1 ≤ frameWeight B0 fr :=
    frameWeight_pos B0 fr (fun c hc => by have h2 := hfrcolor c hc; omega)
  simp only [stepFn]
  obtain hcc := chooseColor_cases g (uncolorPhase g fr st).1 fr.vertex
    (uncolorPhase g fr st).2 fr.colors_used
  have hscval : ∀ c, fr.color = some c → (uncolorPhase g fr st).2 = c + 1 := by
    intro c hc
    unfold uncolorPhase
    rw [hc]
  generalize hup : uncolorPhase g fr st = up at *
  obtain ⟨st1, sc⟩ := up
  dsimp only at *
  generalize hnc : chooseColor g st1 fr.vertex sc fr.colors_used = nc at *
  have hnclt : nc < (if nc = fr.colors_used then fr.colors_used + 1 else fr.colors_used) := by
    rcases hcc with h | h
    · rw [if_pos h, h]; omega
    · rw [if_neg (by omega)]; omega
  have hncge : ∀ c, fr.color = some c → c < nc := by
    intro c hc
    have hsc2 := hscval c hc
    rcases hcc with h | h
    · have h3 := hfrcolor c hc
      omega
    · omega
  generalize hcu2 : (if nc = fr.colors_used then fr.colors_used + 1 else fr.colors_used)
    = cu2 at hnclt ⊢
  have hcu2le : cu2 ≤ fr.colors_used + 1 := by
    rw [← hcu2]
    split <;> omega
  split
  · next hguard =>
    right
    exact stackMeasure_cons_lt B0 g.n fr rest hwfr
  · next hguard =>
    have hguard2 : cu2 < st1.best_found := by omega
    have hcu2B : cu2 < B0 := by
      have h3 := hinv.best_le
      rw [hbf] at hguard2
      omega
    have hncB : nc < B0 := by omega
    obtain ⟨hg1, hg2, hg3, hg4, hg5, hg6⟩ :=
      commit_lists_facts g B0 st1.vtx_to_cls st1.cls_groups fr.vertex nc hvn hncB
        hL1 hL2 hL3 hC hU hB
    have hwlt : frameWeight B0 (⟨fr.vertex, some nc, cu2⟩ : Frame) < frameWeight B0 fr := by
      unfold frameWeight
      cases hc : fr.color with
      | none =>
        show B0 + 1 - nc < B0 + 2
        omega
      | some c =>
        have h3 := hncge c hc
        show B0 + 1 - nc < B0 + 1 - c
        omega
    have hcvx : ∀ s : List Frame,
        (color_vertex g { st1 with stack := s } fr.vertex nc).vtx_to_cls
          = st1.vtx_to_cls.set fr.vertex (some nc) := fun s => color_vertex_vtx_to_cls ..
    have hcsx : ∀ s : List Frame,
        (color_vertex g { st1 with stack := s } fr.vertex nc).stack = s :=
      fun s => color_vertex_stack ..
    split
    · next hnone =>
      split
      · next hmode => left; rfl
      · split
        · next htarget => left; rfl
        · next htarget =>
          right
          simp only [hcsx, List.tail_cons]
          exact stackMeasure_cons_lt B0 g.n fr rest hwfr
    · next w hw =>
      right
      simp only [hcsx]
      have hwfacts := (nextVertex_spec g
        (color_vertex g { st1 with stack := ⟨fr.vertex, some nc, cu2⟩ :: rest } fr.vertex nc)
        w).mp hw
      have hwn : w < g.n := hwfacts.1.1
      have hwunc2 : (st1.vtx_to_cls.set fr.vertex (some nc)).getD w none = none := by
        have h3 := hwfacts.1.2
        rw [hcvx] at h3
        exact Option.isNone_iff_eq_none.mp h3
      have hwne : w ≠ fr.vertex := by
        intro he
        rw [he, hg5] at hwunc2
        cases hwunc2
      have hwnotrest : w ∉ rest.map Frame.vertex := by
        intro hmem
        obtain ⟨f, hf, hfe⟩ := List.mem_map.mp hmem
        have h3 := hrest_comm f hf
        cases hcol : f.color with
        | none => rw [hcol] at h3; cases h3
        | some cf =>
          have h4 := hrest_match f hf cf hcol
          have h5 : (st1.vtx_to_cls.set fr.vertex (some nc)).getD f.vertex none = some cf := by
            rw [hg6 f.vertex (hrest_ne f hf)]
            exact h4
          rw [hfe, hwunc2] at h5
          cases h5
      have hlenb : (fr :: rest).length + 1 ≤ g.n := by
        have hnodup2 : (w :: fr.vertex :: rest.map Frame.vertex).Nodup := by
          rw [List.nodup_cons]
          refine ⟨?_, hnd0⟩
          intro hmem
          rcases List.mem_cons.mp hmem with he | hmem2
          · exact hwne he
          · exact hwnotrest hmem2
        have hallb : ∀ x ∈ w :: fr.vertex :: rest.map Frame.vertex, x < g.n := by
          intro x hx
          rcases List.mem_cons.mp hx with rfl | hx2
          · exact hwn
          · rcases List.mem_cons.mp hx2 with rfl | hx3
            · exact hvn
            · obtain ⟨f, hf, hfe⟩ := List.mem_map.mp hx3
              exact hfe ▸ hrest_lt f hf
        have h6 := nodup_lt_length_le _ hnodup2 g.n hallb
        simp only [List.length_cons, List.length_map] at h6
        simp only [List.length_cons]
        omega
      exact stackMeasure_push_lt B0 g.n ⟨w, none, cu2⟩ ⟨fr.vertex, some nc, cu2⟩ fr rest
        hwlt hlenb

theorem dsaturLoop_isSome (g : GraphData) (mode target B0 : Nat) :
    ∀ (fuel : Nat) (st : DState), Inv g B0 st →
      stackMeasure B0 g.n st.stack < fuel →
      ∃ stf, dsaturLoop g mode target fuel st = some stf := by
  intro fuel
  induction fuel with
  | zero => intro st _ hm; omega
  | succ fuel ih =>
    intro st hinv hm
    rw [dsaturLoop]
    cases hs : st.stack with
    | nil => exact ⟨st, rfl⟩
    | cons fr rest =>
      show ∃ stf, (match stepFn g mode target fr rest st with
        | (s2, true) => some s2
        | (s2, false) => dsaturLoop g mode target fuel s2) = some stf
      have hdec := stepFn_measure g mode target B0 fr rest st hs hinv
      have hinv2 := stepFn_inv g mode target B0 fr rest st hs hinv
      cases hstepeq : stepFn g mode target fr rest st with
      | mk st1 brk =>
        rw [hstepeq] at hdec hinv2
        cases brk with
        | true => exact ⟨st1, rfl⟩
        | false =>
          rcases hdec with h | h
          · cases h
          · have hm2 : stackMeasure B0 g.n st1.stack < fuel := by
              rw [hs] at hm
              dsimp only at h
              omega
            obtain ⟨stf, hstf⟩ := ih st1 hinv2 hm2
            exact ⟨stf, hstf⟩

/-- C10: with no timeout the main search loop of `__dsatur` reaches, after
finitely many iterations, either an empty stack or one of the explicit
`break` conditions, for every finite edge list, mode, target and initial
bound: running it with the fuel `fuelBound` never exhausts the fuel.  (On
an empty edge list the Python code raises `ValueError` at line 168 before
the loop, embedded here as an empty initial stack on which the loop stops
at once.) -/
theorem dsatur_loop_terminates (edges : List (Nat × Nat)) (mode target B0 : Nat) :
    ∃ stf, dsaturLoop (mkGraphData edges) mode target
      (fuelBound (mkGraphData edges).n B0) (initState (mkGraphData edges) B0) = some stf := by
  apply dsaturLoop_isSome (mkGraphData edges) mode target B0 _ _
    (Inv_init (mkGraphData edges) B0)
  have hle : stackMeasure B0 (mkGraphData edges).n (initState (mkGraphData edges) B0).stack
      ≤ (B0 + 2) * (B0 + 3) ^ (mkGraphData edges).n := by
    unfold initState
    show stackMeasure B0 (mkGraphData edges).n
        (match pyMax (dsatur_score (mkGraphData edges) (zeroState (mkGraphData edges) B0))
          (List.range (mkGraphData edges).n) with
        | some v => { zeroState (mkGraphData edges) B0 with stack := [⟨v, none, 0⟩] }
        | none => zeroState (mkGraphData edges) B0).stack
      ≤ (B0 + 2) * (B0 + 3) ^ (mkGraphData edges).n
    split
    · next v heq =>
      show stackMeasure B0 (mkGraphData edges).n [⟨v, none, 0⟩]
        ≤ (B0 + 2) * (B0 + 3) ^ (mkGraphData edges).n
      rw [stackMeasure, stackMeasure]
      have hp : (B0 + 3) ^ ((mkGraphData edges).n - 1) ≤ (B0 + 3) ^ (mkGraphData edges).n :=
        Nat.pow_le_pow_right (by omega) (by omega)
      have h2 : frameWeight B0 (⟨v, none, 0⟩ : Frame) = B0 + 2 := rfl
      rw [h2]
      have h3 := Nat.mul_le_mul_left (B0 + 2) hp
      simpa using h3
    · next heq =>
      show stackMeasure B0 (mkGraphData edges).n [] ≤ _
      rw [stackMeasure]
      exact Nat.zero_le _
  unfold fuelBound
  omega


/-! Adjacency-row coverage: every edge endpoint pair is reflected by a set
bit in the corresponding adjacency row (dsatur.py lines 102-116). -/

theorem getD_set_true_mono (arr : List Bool) (i j : Nat) (h : arr.getD i false = true) :
    (arr.set j true).getD i false = true := by
  by_cases hij : j = i
  · subst hij
    by_cases hl : j < arr.length
    · rw [getD_set_self _ _ _ _ hl]
    · rw [List.set_eq_of_length_le (by omega)]
      exact h
  · rw [getD_set_ne _ _ _ _ _ hij]
    exact h

theorem adjRow_foldl_length (v : Nat) (l : List (Nat × Nat)) :
    ∀ arr : List Bool,
      (l.foldl
        (fun arr e =>
          if e.1 = v then arr.set e.2 true
          else if e.2 = v then arr.set e.1 true
          else arr) arr).length = arr.length := by
  induction l with
  | nil => intro arr; rfl
  | cons e l ih =>
    intro arr
    rw [List.foldl_cons, ih]
    split
    · rw [List.length_set]
    · split
      · rw [List.length_set]
      · rfl

theorem adjRow_foldl_mono (v : Nat) (l : List (Nat × Nat)) :
    ∀ (arr : List Bool) (i : Nat), arr.getD i false = true →
      (l.foldl
        (fun arr e =>
          if e.1 = v then arr.set e.2 true
          else if e.2 = v then arr.set e.1 true
          else arr) arr).getD i false = true := by
  induction l with
  | nil => intro arr i h; exact h
  | cons e l ih =>
    intro arr i h
    rw [List.foldl_cons]
    refine ih _ i ?_
    split
    · exact getD_set_true_mono _ _ _ h
    · split
      · exact getD_set_true_mono _ _ _ h
      · exact h

theorem adjRowArr_bit_of_edge (edges : List (Nat × Nat)) (n vertex : Nat)
    (e : Nat × Nat) (he : e ∈ edges) :
    (e.1 = vertex → e.2 < n → (adjRowArr edges n vertex).getD e.2 false = true) ∧
    (e.2 = vertex → e.1 ≠ vertex → e.1 < n →
      (adjRowArr edges n vertex).getD e.1 false = true) := by
  obtain ⟨s, t, hst⟩ := List.append_of_mem he
  unfold adjRowArr
  rw [hst, List.foldl_append, List.foldl_cons]
  have hlen := adjRow_foldl_length vertex s ((List.replicate n false).set vertex true)
  constructor
  · intro h1 h2
    refine adjRow_foldl_mono vertex t _ e.2 ?_
    rw [if_pos h1]
    refine getD_set_self _ _ _ _ ?_
    rw [hlen, List.length_set, List.length_replicate]
    exact h2
  · intro h2 h1 hlt
    refine adjRow_foldl_mono vertex t _ e.1 ?_
    rw [if_neg h1, if_pos h2]
    refine getD_set_self _ _ _ _ ?_
    rw [hlen, List.length_set, List.length_replicate]
    exact hlt

theorem mkGraphData_adj_row (edges : List (Nat × Nat)) (v : Nat)
    (hv : v < vtxCount edges) :
    (mkGraphData edges).adj_vtx_matr.getD v [] = adjRowArr edges (vtxCount edges) v := by
  unfold mkGraphData
  dsimp only
  rw [List.getD_eq_getElem _ _ (by simpa using hv)]
  simp

theorem bandIsZero_no_common (a b : List Bool) (i : Nat) (h : bandIsZero a b = true)
    (ha : a.getD i false = true) (hb : b.getD i false = true) : False := by
  have hia : i < a.length := by
    by_contra hx
    rw [List.getD_eq_default a false (by omega)] at ha
    cases ha
  have hib : i < b.length := by
    by_contra hx
    rw [List.getD_eq_default b false (by omega)] at hb
    cases hb
  unfold bandIsZero at h
  rw [List.all_eq_true] at h
  have hiz : i < (List.zipWith (fun x y => x && y) a b).length := by
    rw [List.length_zipWith]
    omega
  have he : (List.zipWith (fun x y => x && y) a b)[i]
      = (a.getD i false && b.getD i false) := by
    rw [List.getElem_zipWith, List.getD_eq_getElem a _ hia, List.getD_eq_getElem b _ hib]
  have hmem : (a.getD i false && b.getD i false)
      ∈ List.zipWith (fun x y => x && y) a b := by
    rw [← he]
    exact List.getElem_mem hiz
  have h2 := h _ hmem
  rw [ha, hb] at h2
  cases h2

/-! Properness is preserved by retracting a color and, under the
no-adjacent-conflict side condition, by committing one. -/

theorem proper_of_agree (edges : List (Nat × Nat)) (V W : List (Option Nat))
    (hag : ∀ u, W.getD u none = V.getD u none ∨ W.getD u none = none)
    (hp : ProperColoring edges V) : ProperColoring edges W := by
  intro e he hne c h1 h2
  rcases hag e.1 with ha1 | ha1
  · rcases hag e.2 with ha2 | ha2
    · rw [ha1] at h1
      rw [ha2] at h2
      exact hp e he hne c h1 h2
    · rw [ha2] at h2
      cases h2
  · rw [ha1] at h1
    cases h1

theorem proper_set_commit (edges : List (Nat × Nat)) (V : List (Option Nat)) (v nc : Nat)
    (hp : ProperColoring edges V)
    (hno : ∀ e ∈ edges, e.1 ≠ e.2 →
      (e.1 = v → V.getD e.2 none ≠ some nc) ∧ (e.2 = v → V.getD e.1 none ≠ some nc)) :
    ProperColoring edges (V.set v (some nc)) := by
  by_cases hvl : v < V.length
  · intro e he hne c h1 h2
    by_cases h1v : e.1 = v
    · have hc : c = nc := by
        rw [h1v, getD_set_self _ _ _ _ hvl] at h1
        exact (Option.some_inj.mp h1).symm
      subst hc
      have h2v : e.2 ≠ v := fun hx => hne (h1v.trans hx.symm)
      rw [getD_set_ne _ _ _ _ _ (fun hx => h2v hx.symm)] at h2
      exact (hno e he hne).1 h1v h2
    · rw [getD_set_ne _ _ _ _ _ (fun hx => h1v hx.symm)] at h1
      by_cases h2v : e.2 = v
      · have hc : c = nc := by
          rw [h2v, getD_set_self _ _ _ _ hvl] at h2
          exact (Option.some_inj.mp h2).symm
        subst hc
        exact (hno e he hne).2 h2v h1
      · rw [getD_set_ne _ _ _ _ _ (fun hx => h2v hx.symm)] at h2
        exact hp e he hne c h1 h2
  · rw [List.set_eq_of_length_le (by omega)]
    exact hp

theorem commit_no_adjacent (edges : List (Nat × Nat)) (g : GraphData)
    (hg : g = mkGraphData edges) (hok : EdgesOk edges) (B0 : Nat) (st1 : DState)
    (v nc : Nat) (hvn : v < g.n) (hncB : nc < B0)
    (hcons : ∀ c < B0, ∀ u < g.n,
      (bit2 st1.cls_groups c u = true ↔ st1.vtx_to_cls.getD u none = some c))
    (hband : bandIsZero (g.adj_vtx_matr.getD v []) (st1.cls_groups.getD nc []) = true) :
    ∀ e ∈ edges, e.1 ≠ e.2 →
      (e.1 = v → st1.vtx_to_cls.getD e.2 none ≠ some nc) ∧
      (e.2 = v → st1.vtx_to_cls.getD e.1 none ≠ some nc) := by
  have hn : g.n = vtxCount edges := by
    rw [hg]
    rfl
  have hrow : g.adj_vtx_matr.getD v [] = adjRowArr edges (vtxCount edges) v := by
    rw [hg]
    exact mkGraphData_adj_row edges v (by omega)
  intro e he hne
  obtain ⟨h1n, h2n⟩ := hok e he
  obtain ⟨hb1, hb2⟩ := adjRowArr_bit_of_edge edges (vtxCount edges) v e he
  constructor
  · intro h1v hcol
    have hbit : bit2 st1.cls_groups nc e.2 = true :=
      (hcons nc hncB e.2 (by omega)).mpr hcol
    have hadj : (g.adj_vtx_matr.getD v []).getD e.2 false = true := by
      rw [hrow]
      exact hb1 h1v h2n
    exact bandIsZero_no_common _ _ e.2 hband hadj hbit
  · intro h2v hcol
    by_cases h1v : e.1 = v
    · exact absurd (h1v.trans h2v.symm) hne
    · have hbit : bit2 st1.cls_groups nc e.1 = true :=
        (hcons nc hncB e.1 (by omega)).mpr hcol
      have hadj : (g.adj_vtx_matr.getD v []).getD e.1 false = true := by
        rw [hrow]
        exact hb2 h2v h1v h1n
      exact bandIsZero_no_common _ _ e.1 hband hadj hbit

/-! When `nextVertex` returns `None`, every vertex is colored. -/

theorem pyMax_foldl_isSome (key : Nat → Nat × Nat) (l : List Nat) :
    ∀ w : Nat,
      (l.foldl
        (fun acc v =>
          match acc with
          | none => some v
          | some w => if pairLt (key w) (key v) then some v else some w)
        (some w)).isSome = true := by
  induction l with
  | nil => intro w; rfl
  | cons b l ih =>
    intro w
    rw [List.foldl_cons]
    dsimp only
    split
    · exact ih b
    · exact ih w

theorem pyMax_ne_none_of_mem (key : Nat → Nat × Nat) (l : List Nat) (x : Nat)
    (hx : x ∈ l) : pyMax key l ≠ none := by
  cases l with
  | nil => cases hx
  | cons a l =>
    intro h
    unfold pyMax at h
    rw [List.foldl_cons] at h
    dsimp only at h
    have h2 := pyMax_foldl_isSome key l a
    rw [h] at h2
    simp at h2

theorem nextVertex_none_all_colored (g : GraphData) (st : DState)
    (h : nextVertex g st = none) :
    ∀ v, v < g.n → (st.vtx_to_cls.getD v none).isSome = true := by
  intro v hv
  cases ho : st.vtx_to_cls.getD v none with
  | some c => rfl
  | none =>
    exfalso
    unfold nextVertex at h
    have hvmem : v ∈ (List.range g.n).filter
        (fun u => (st.vtx_to_cls.getD u none).isNone) := by
      rw [List.mem_filter, List.mem_range]
      exact ⟨hv, by rw [ho]; rfl⟩
    exact pyMax_ne_none_of_mem (dsatur_score g st) _ v hvmem h

/-! The greedy-mode invariant `Inv0` holds initially and is preserved by
every non-breaking iteration; a breaking iteration records a complete,
proper incumbent whose colors all lie below the recorded count. -/

theorem initState_vtx_to_cls (g : GraphData) (B0 : Nat) :
    (initState g B0).vtx_to_cls = List.replicate g.n none := by
  unfold initState zeroState
  dsimp only
  split <;> rfl

theorem initState_vtx_getD (g : GraphData) (B0 u : Nat) :
    (initState g B0).vtx_to_cls.getD u none = none := by
  rw [initState_vtx_to_cls]
  by_cases hu : u < g.n
  · exact getD_replicate _ _ _ _ hu
  · rw [List.getD_eq_default _ _ (by rw [List.length_replicate]; omega)]

theorem initState_stack_cases (g : GraphData) (B0 : Nat) :
    (initState g B0).stack = [] ∨ ∃ v, (initState g B0).stack = [⟨v, none, 0⟩] := by
  unfold initState
  dsimp only
  split
  · right
    exact ⟨_, rfl⟩
  · left
    rfl

theorem Inv0_init (edges : List (Nat × Nat)) (g : GraphData) (B0 : Nat) :
    Inv0 edges (initState g B0) := by
  refine ⟨?_, ?_, ?_, initState_best_coloring g B0⟩
  · intro v c hc
    rw [initState_vtx_getD] at hc
    cases hc
  · intro e he hne c h1
    rw [initState_vtx_getD] at h1
    cases h1
  · rcases initState_stack_cases g B0 with h | ⟨v, h⟩
    · rw [h]
      exact List.Pairwise.nil
    · rw [h]
      exact List.pairwise_singleton _ _

theorem stepFn_inv0 (edges : List (Nat × Nat)) (g : GraphData) (hg : g = mkGraphData edges)
    (hok : EdgesOk edges) (target B0 : Nat) (fr : Frame) (rest : List Frame) (st : DState)
    (hstack : st.stack = fr :: rest) (hinv : Inv g B0 st) (hinv0 : Inv0 edges st) :
    ((stepFn g 0 target fr rest st).2 = false →
      Inv0 edges (stepFn g 0 target fr rest st).1) ∧
    ((stepFn g 0 target fr rest st).2 = true →
      ∃ col, (stepFn g 0 target fr rest st).1.best_coloring = some col ∧
        col.length = g.n ∧ ProperColoring edges col ∧
        ∀ v, v < g.n → ∃ c, c < (stepFn g 0 target fr rest st).1.best_found ∧
          col.getD v none = some c) := by
  obtain ⟨hL1, hL2, hL3, hC, hU, hB, hO⟩ := uncolorPhase_facts g B0 st fr rest hstack hinv
  have hbf := uncolorPhase_best_found g fr st
  have hbc := uncolorPhase_best_coloring g fr st
  have hble := hinv.best_le
  have hvn : fr.vertex < g.n :=
    hinv.frames_lt fr (by rw [hstack]; exact List.mem_cons_self fr rest)
  have hfrcu : fr.colors_used ≤ B0 :=
    hinv.frames_cu fr (by rw [hstack]; exact List.mem_cons_self fr rest)
  have hrest_color : ∀ f ∈ rest, ∀ c, f.color = some c → c < f.colors_used :=
    fun f hf => hinv.frames_color f (by rw [hstack]; exact List.mem_cons_of_mem fr hf)
  have hpw0 : (fr :: rest).Pairwise (fun a b => b.colors_used ≤ a.colors_used) := by
    have h2 := hinv0.cu_mono
    rwa [hstack] at h2
  have hcu_rest : ∀ f ∈ rest, f.colors_used ≤ fr.colors_used :=
    (List.pairwise_cons.mp hpw0).1
  have hpw_rest : rest.Pairwise (fun a b => b.colors_used ≤ a.colors_used) :=
    (List.pairwise_cons.mp hpw0).2
  have hproper0 := hinv0.proper
  have hcos := hinv0.colored_on_stack
  have hni := hinv0.no_incumbent
  simp only [stepFn]
  obtain hcc := chooseColor_cases g (uncolorPhase g fr st).1 fr.vertex
    (uncolorPhase g fr st).2 fr.colors_used
  generalize hup : uncolorPhase g fr st = up at *
  obtain ⟨st1, sc⟩ := up
  dsimp only at *
  have hproper1 : ProperColoring edges st1.vtx_to_cls := by
    refine proper_of_agree edges st.vtx_to_cls _ ?_ hproper0
    intro u
    by_cases huv : u = fr.vertex
    · subst huv
      right
      exact hU
    · left
      exact hO u huv
  have hcolored1 : ∀ v c, st1.vtx_to_cls.getD v none = some c →
      v ≠ fr.vertex ∧ ∃ f ∈ rest, f.vertex = v ∧ f.color = some c := by
    intro v c hc
    by_cases hv : v = fr.vertex
    · subst hv
      rw [hU] at hc
      cases hc
    · refine ⟨hv, ?_⟩
      rw [hO v hv] at hc
      obtain ⟨f, hf, hfe, hfc⟩ := hcos v c hc
      rw [hstack] at hf
      rcases List.mem_cons.mp hf with rfl | hf2
      · exact absurd hfe.symm hv
      · exact ⟨f, hf2, hfe, hfc⟩
  generalize hnc : chooseColor g st1 fr.vertex sc fr.colors_used = nc at *
  have hnclt : nc < (if nc = fr.colors_used then fr.colors_used + 1 else fr.colors_used) := by
    rcases hcc with h | h
    · rw [if_pos h, h]
      omega
    · rw [if_neg (by omega)]
      omega
  have hcu2ge : fr.colors_used ≤
      (if nc = fr.colors_used then fr.colors_used + 1 else fr.colors_used) := by
    split <;> omega
  generalize hcu2 : (if nc = fr.colors_used then fr.colors_used + 1 else fr.colors_used)
    = cu2 at hnclt hcu2ge ⊢
  split
  · next hguard =>
    refine ⟨fun _ => ?_, fun h => nomatch h⟩
    exact ⟨fun v c hc => (hcolored1 v c hc).2, hproper1, hpw_rest, hbc.trans hni⟩
  · next hguard =>
    have hncB : nc < B0 := by omega
    obtain ⟨hg1, hg2, hg3, hg4, hg5, hg6⟩ :=
      commit_lists_facts g B0 st1.vtx_to_cls st1.cls_groups fr.vertex nc hvn hncB
        hL1 hL2 hL3 hC hU hB
    have hno : ∀ e ∈ edges, e.1 ≠ e.2 →
        (e.1 = fr.vertex → st1.vtx_to_cls.getD e.2 none ≠ some nc) ∧
        (e.2 = fr.vertex → st1.vtx_to_cls.getD e.1 none ≠ some nc) := by
      rcases hcc with hfresh | ⟨hsc2, hlt2, hband⟩
      · have hstrong : ∀ u, st1.vtx_to_cls.getD u none ≠ some nc := by
          intro u hcontra
          obtain ⟨hne, f, hf, hfe, hfc⟩ := hcolored1 u nc hcontra
          have h4 := hrest_color f hf nc hfc
          have h5 := hcu_rest f hf
          omega
        exact fun e he hne => ⟨fun _ => hstrong e.2, fun _ => hstrong e.1⟩
      · exact commit_no_adjacent edges g hg hok B0 st1 fr.vertex nc hvn hncB hC hband
    have hproper3 : ProperColoring edges (st1.vtx_to_cls.set fr.vertex (some nc)) :=
      proper_set_commit edges st1.vtx_to_cls fr.vertex nc hproper1 hno
    have hcommit_cos : ∀ v c,
        (st1.vtx_to_cls.set fr.vertex (some nc)).getD v none = some c →
        (v = fr.vertex ∧ c = nc) ∨ ∃ f ∈ rest, f.vertex = v ∧ f.color = some c := by
      intro v c hc
      by_cases hv : v = fr.vertex
      · subst hv
        rw [hg5] at hc
        exact Or.inl ⟨rfl, (Option.some_inj.mp hc).symm⟩
      · rw [hg6 v hv] at hc
        exact Or.inr (hcolored1 v c hc).2
    have hcvx : ∀ s : List Frame,
        (color_vertex g { st1 with stack := s } fr.vertex nc).vtx_to_cls
          = st1.vtx_to_cls.set fr.vertex (some nc) := fun s => color_vertex_vtx_to_cls ..
    have hcsx : ∀ s : List Frame,
        (color_vertex g { st1 with stack := s } fr.vertex nc).stack = s :=
      fun s => color_vertex_stack ..
    have hcbcx : ∀ s : List Frame,
        (color_vertex g { st1 with stack := s } fr.vertex nc).best_coloring
          = st1.best_coloring := fun s => color_vertex_best_coloring ..
    split
    · next hnone =>
      simp only [reduceIte]
      refine ⟨fun h => (nomatch h), fun _ => ?_⟩
      refine ⟨_, rfl, ?_, ?_, ?_⟩
      · rw [hcvx]
        exact hg1
      · rw [hcvx]
        exact hproper3
      · intro v hv
        have hsome := nextVertex_none_all_colored g _ hnone v hv
        rw [hcvx] at hsome ⊢
        obtain ⟨c, hc⟩ := Option.isSome_iff_exists.mp hsome
        refine ⟨c, ?_, hc⟩
        show c < cu2
        rcases hcommit_cos v c hc with ⟨hv2, hc2⟩ | ⟨f, hf, hfe, hfc⟩
        · omega
        · have h4 := hrest_color f hf c hfc
          have h5 := hcu_rest f hf
          omega
    · next w hw =>
      refine ⟨fun _ => ?_, fun h => nomatch h⟩
      refine ⟨?_, ?_, ?_, ?_⟩
      all_goals simp only [hcsx, hcvx, hcbcx]
      · intro v c hc
        rcases hcommit_cos v c hc with ⟨hv2, hc2⟩ | ⟨f, hf, hfe, hfc⟩
        · subst hv2
          exact ⟨⟨fr.vertex, some nc, cu2⟩,
            List.mem_cons_of_mem _ (List.mem_cons_self _ _), rfl, by rw [hc2]⟩
        · exact ⟨f, List.mem_cons_of_mem _ (List.mem_cons_of_mem _ hf), hfe, hfc⟩
      · exact hproper3
      · refine List.pairwise_cons.mpr ⟨?_, List.pairwise_cons.mpr ⟨?_, hpw_rest⟩⟩
        · intro f hf
          rcases List.mem_cons.mp hf with rfl | hf2
          · show cu2 ≤ cu2
            exact le_rfl
          · show f.colors_used ≤ cu2
            have h5 := hcu_rest f hf2
            omega
        · intro f hf
          show f.colors_used ≤ cu2
          have h5 := hcu_rest f hf
          omega
      · exact hbc.trans hni

theorem dsaturLoop0_sound (edges : List (Nat × Nat)) (g : GraphData)
    (hg : g = mkGraphData edges) (hok : EdgesOk edges) (target B0 : Nat) (fuel : Nat) :
    ∀ st stf : DState, Inv g B0 st → Inv0 edges st →
      dsaturLoop g 0 target fuel st = some stf →
      stf.best_coloring = none ∨
        ∃ col, stf.best_coloring = some col ∧ col.length = g.n ∧
          ProperColoring edges col ∧
          ∀ v, v < g.n → ∃ c, c < stf.best_found ∧ col.getD v none = some c := by
  induction fuel with
  | zero =>
    intro st stf _ _ h
    simp [dsaturLoop] at h
  | succ fuel ih =>
    intro st stf hinv hinv0 h
    rw [dsaturLoop] at h
    cases hs : st.stack with
    | nil =>
      rw [hs] at h
      cases h
      exact Or.inl hinv0.no_incumbent
    | cons fr rest =>
      rw [hs] at h
      dsimp only at h
      have h0 := stepFn_inv0 edges g hg hok target B0 fr rest st hs hinv hinv0
      have hI := stepFn_inv g 0 target B0 fr rest st hs hinv
      cases hstep : stepFn g 0 target fr rest st with
      | mk st1 brk =>
        rw [hstep] at h h0 hI
        cases brk with
        | true =>
          dsimp only at h
          cases h
          exact Or.inr (h0.2 rfl)
        | false =>
          dsimp only at h
          exact ih st1 stf hI (h0.1 rfl) h

theorem dsaturRun0_sound (edges : List (Nat × Nat)) (hok : EdgesOk edges)
    (target B0 k : Nat) (col : List (Option Nat))
    (h : dsaturRun edges 0 target B0 = some (k, col)) :
    col.length = vtxCount edges ∧ ProperColoring edges col ∧
      ∀ v, v < vtxCount edges → ∃ c, c < k ∧ col.getD v none = some c := by
  simp only [dsaturRun] at h
  cases hl : dsaturLoop (mkGraphData edges) 0 target
      (fuelBound (mkGraphData edges).n B0) (initState (mkGraphData edges) B0) with
  | none =>
    rw [hl] at h
    cases h
  | some stf =>
    rw [hl] at h
    have hsound := dsaturLoop0_sound edges (mkGraphData edges) rfl hok target B0 _
      (initState (mkGraphData edges) B0) stf (Inv_init (mkGraphData edges) B0)
      (Inv0_init edges (mkGraphData edges) B0) hl
    simp only [extractResult] at h
    cases hc : stf.best_coloring with
    | none =>
      rw [hc] at h
      cases h
    | some col2 =>
      rw [hc] at h
      cases h
      rcases hsound with hnone | ⟨col3, hc3, hlen, hp, hall⟩
      · rw [hc] at hnone
        cases hnone
      · rw [hc] at hc3
        rw [Option.some_inj] at hc3
        subst hc3
        exact ⟨hlen, hp, hall⟩

/-! Bridge from a complete proper assignment to `ColorableWith`. -/

theorem colorableWith_of_proper_complete (edges : List (Nat × Nat)) (n k : Nat)
    (col : List (Option Nat)) (hp : ProperColoring edges col)
    (hall : ∀ v, v < n → ∃ c, c < k ∧ col.getD v none = some c) :
    ColorableWith edges n k := by
  have hf : ∀ v : Fin n, (col.getD v.1 none).getD 0 < k := by
    intro v
    obtain ⟨c, hc, he⟩ := hall v.1 v.2
    rw [he]
    exact hc
  refine ⟨fun v => ⟨(col.getD v.1 none).getD 0, hf v⟩, ?_⟩
  intro e he hne h1 h2 heq
  rw [Fin.mk.injEq] at heq
  obtain ⟨c1, hc1, he1⟩ := hall e.1 h1
  obtain ⟨c2, hc2, he2⟩ := hall e.2 h2
  rw [he1, he2] at heq
  simp only [Option.getD_some] at heq
  have h3 : col.getD e.2 none = some c1 := by
    rw [he2]
    exact congrArg some heq.symm
  exact hp e he hne c1 he1 h3

theorem colorableWith_mono (edges : List (Nat × Nat)) (n k k2 : Nat) (hk : k ≤ k2)
    (h : ColorableWith edges n k) : ColorableWith edges n k2 := by
  obtain ⟨f, hf⟩ := h
  refine ⟨fun v => ⟨(f v).1, lt_of_lt_of_le (f v).isLt hk⟩, ?_⟩
  intro e he hne h1 h2 heq
  rw [Fin.mk.injEq] at heq
  exact hf e he hne h1 h2 (Fin.val_injective heq)

/-- C8: every `__dsatur` run that returns a result reports a color count
strictly below the initial `best_found` bound it started from (in greedy
mode that bound is `vtx_count`); consequently, on a graph whose chromatic
number equals its vertex count — one that admits no proper coloring with
`vtx_count - 1` colors — the greedy run returns `None`, and so does
`color_graph` in greedy mode and in `bnb` mode (whose second run is never
reached). -/
theorem dsatur_below_bound_none_on_chromatic_full (edges : List (Nat × Nat)) :
    (∀ mode target B0 k c, dsaturRun edges mode target B0 = some (k, c) → k < B0) ∧
    (EdgesOk edges →
      ¬ ColorableWith edges (vtxCount edges) (vtxCount edges - 1) →
      dsaturGreedy edges = none ∧ color_graph_greedy edges = none ∧
        ∀ improve, color_graph_bnb edges improve = none) := by
  refine ⟨fun mode target B0 k c h => dsaturRun_count_lt edges mode target B0 k c h, ?_⟩
  intro hok hchi
  have hgreedy : dsaturGreedy edges = none := by
    cases hgr : dsaturGreedy edges with
    | none => rfl
    | some pr =>
      exfalso
      obtain ⟨k, col⟩ := pr
      unfold dsaturGreedy at hgr
      have hk : k < vtxCount edges :=
        dsaturRun_count_lt edges 0 1 (vtxCount edges) k col hgr
      have hsound := dsaturRun0_sound edges hok 1 (vtxCount edges) k col hgr
      have hcw : ColorableWith edges (vtxCount edges) k :=
        colorableWith_of_proper_complete edges (vtxCount edges) k col hsound.2.1 hsound.2.2
      exact hchi (colorableWith_mono edges (vtxCount edges) k (vtxCount edges - 1)
        (by omega) hcw)
  refine ⟨hgreedy, hgreedy, ?_⟩
  intro improve
  simp only [color_graph_bnb, hgreedy]

/-- Witness for C8 on the triangle, whose chromatic number 3 equals its
vertex count: no proper 2-coloring of it exists, and every run of the
code on it returns nothing. -/
theorem dsatur_below_bound_none_on_chromatic_full_witness :
    dsaturGreedy triangleEdges = none ∧ color_graph_greedy triangleEdges = none ∧
      ∀ improve, color_graph_bnb triangleEdges improve = none :=
  (dsatur_below_bound_none_on_chromatic_full triangleEdges).2
    (by unfold EdgesOk; decide) (by unfold ColorableWith; decide)

end Dsatur
